import Mathlib

/-!
Verification development for the Odin documentation generator
(`doc_gen.py`): a shallow embedding of its extraction, rendering and
directory-walk pipeline, with theorems about the spec's claims.

Strings are modelled by `String`/`List Char`; filesystem paths by lists of
path segments (so `Path.resolve` is the identity: the model has no symlinks
and all paths are already absolute); reading a file is modelled by an
`Option String` carried with each input file (`none` = the read raises).
Recursive functions over the nested sidebar tree take an explicit fuel
argument (with a `sizeOf`-based wrapper) so that every definition stays
kernel-computable.  Character classes follow CPython's `str` semantics for
whitespace and line breaks; `\w` is modelled by its ASCII fragment
`[A-Za-z0-9_]` (identifiers in the claims are ASCII).
-/

/-- Python whitespace (`str.isspace`, regex `\s` for `str` patterns,
default `str.strip`/`str.split`), by code point. -/
def isSpace (c : Char) : Bool :=
  let n := c.toNat
  n = 32 || n = 9 || n = 10 || n = 13 || n = 11 || n = 12 ||
  (28 ≤ n && n ≤ 31) || n = 133 || n = 160 || n = 5760 ||
  (8192 ≤ n && n ≤ 8202) || n = 8232 || n = 8233 || n = 8239 || n = 8287 || n = 12288

/-- Regex `[\w\d_]` restricted to ASCII: `[A-Za-z0-9_]`. -/
def isWordChar (c : Char) : Bool :=
  let n := c.toNat
  (65 ≤ n && n ≤ 90) || (97 ≤ n && n ≤ 122) || (48 ≤ n && n ≤ 57) || n = 95

/-- Line-break characters of `str.splitlines` other than the two-character
break `\r\n`, by code point: `\n \r \v \f \x1c \x1d \x1e \x85    `. -/
def isLineBreak (c : Char) : Bool :=
  let n := c.toNat
  n = 10 || n = 13 || n = 11 || n = 12 || n = 28 || n = 29 || n = 30 ||
  n = 133 || n = 8232 || n = 8233

/-- Whether `pat` is a prefix of `l` (Boolean, by direct recursion). -/
def isPrefixList : List Char → List Char → Bool
  | [], _ => true
  | _ :: _, [] => false
  | a :: as, b :: bs => a = b && isPrefixList as bs

/-- Whether `pat` occurs in `hay` as a contiguous segment (substring). -/
def containsSeg (pat : List Char) : List Char → Bool
  | [] => isPrefixList pat []
  | c :: t => isPrefixList pat (c :: t) || containsSeg pat t

/-- Python `str.strip()` on a character list: drop leading and trailing
whitespace. -/
def pyStrip (l : List Char) : List Char :=
  ((l.dropWhile isSpace).reverse.dropWhile isSpace).reverse

/-- Python `line.strip(" *")`: drop leading and trailing spaces and stars. -/
def stripStarSpace (l : List Char) : List Char :=
  let p : Char → Bool := fun c => c = ' ' || c = '*'
  ((l.dropWhile p).reverse.dropWhile p).reverse

/-- Worker for `pySplitlines`: split the non-empty input at line breaks,
`cur` being the current (reversed-free) line prefix.  A trailing segment
after the final break is not emitted when empty, matching Python. -/
def splitGo (cur : List Char) : List Char → List (List Char)
  | [] => [cur]
  | '\r' :: '\n' :: t =>
      cur :: (match t with | [] => [] | _ :: _ => splitGo [] t)
  | c :: t =>
      if isLineBreak c then cur :: (match t with | [] => [] | _ :: _ => splitGo [] t)
      else splitGo (cur ++ [c]) t

/-- Python `str.splitlines()` on a character list. -/
def pySplitlines (s : List Char) : List (List Char) :=
  match s with
  | [] => []
  | _ :: _ => splitGo [] s

/-- Python `line.split(None, 2)`: split at whitespace runs into at most
three parts; the third part is the remainder verbatim (leading whitespace
removed, trailing kept). -/
def pySplitWs2 (l : List Char) : List (List Char) :=
  let t1 := l.dropWhile isSpace
  if t1 = [] then [] else
  let w1 := t1.takeWhile (fun c => !(isSpace c))
  let t2 := (t1.dropWhile (fun c => !(isSpace c))).dropWhile isSpace
  if t2 = [] then [w1] else
  let w2 := t2.takeWhile (fun c => !(isSpace c))
  let t3 := (t2.dropWhile (fun c => !(isSpace c))).dropWhile isSpace
  if t3 = [] then [w1, w2] else [w1, w2, t3]

/-- Python `file.replace(".odin", ".html")`: replace every (non-overlapping,
left-to-right) occurrence. -/
def replOdin : List Char → List Char
  | '.' :: 'o' :: 'd' :: 'i' :: 'n' :: t => '.' :: 'h' :: 't' :: 'm' :: 'l' :: replOdin t
  | c :: t => c :: replOdin t
  | [] => []

/-- One documentation record, as built by `extract_docs` (Python dict with
keys `func`, `description`, `params`, `return`, `signature`; `return` is
spelled `ret` here). -/
structure DocRecord where
  func : String
  description : String
  params : List (String × String)
  ret : String
  signature : String
deriving DecidableEq

/-- The tag-parser state `(description lines, params, return)` threaded
through the line loop of `extract_docs`. -/
abbrev TagState := List (List Char) × List (List Char × List Char) × List Char

/-- One iteration of the line loop in `extract_docs` (lines 22-33 of
`doc_gen.py`): `@param` lines are split `(None, 2)`, `@return` overwrites
the stored return text, anything else joins the description. -/
def tagStep (st : TagState) (line : List Char) : TagState :=
  if isPrefixList "@param".data line then
    match pySplitWs2 line with
    | [_, pname, pdesc] => (st.1, st.2.1 ++ [(pname, pdesc)], st.2.2)
    | _ => (st.1, st.2.1 ++ [(line, [])], st.2.2)
  else if isPrefixList "@return".data line then
    (st.1, st.2.1, pyStrip (line.drop 7))
  else
    (st.1 ++ [line], st.2.1, st.2.2)

/-- The comment body's lines as the loop sees them:
`full_comment.strip().splitlines()`, each line stripped of `" *"`. -/
def linesOfComment (body : List Char) : List (List Char) :=
  (pySplitlines (pyStrip body)).map stripStarSpace

/-- Build the `DocRecord` of one regex match from the captured comment
body (group 2), name (group 3) and signature (group 4), following lines
14-41 of `doc_gen.py`.  `.strip()` is applied to the name and signature
exactly as in the source (it is a no-op on what the pattern captures). -/
def mkDocRecord (body name sig : List Char) : DocRecord :=
  let st := (linesOfComment body).foldl tagStep ([], [], [])
  { func := ⟨pyStrip name⟩
    description := ⟨pyStrip (List.intercalate [' '] st.1)⟩
    params := st.2.1.map (fun q => (⟨q.1⟩, ⟨q.2⟩))
    ret := ⟨st.2.2⟩
    signature := ⟨pyStrip sig⟩ }

/-- The declaration part of the regex,
`\s*([\w\d_]+)\s*::\s*proc\s*(\([^\)]*\)(?:\s*->\s*[\w\d_]+)?)`, matched
against `s` (the text right after a `*/`).  Returns
`(name, signature, rest)` on success.  Every quantifier here is
deterministic (the character classes of adjacent pieces are disjoint), so
a direct scan implements the regex exactly; the optional `->` group
backtracks to just after `)` when it fails partway. -/
def matchDecl (s : List Char) : Option (List Char × List Char × List Char) :=
  let s1 := s.dropWhile isSpace
  let name := s1.takeWhile isWordChar
  let s2 := s1.dropWhile isWordChar
  if name = [] then none else
  match s2.dropWhile isSpace with
  | ':' :: ':' :: s4 =>
    match s4.dropWhile isSpace with
    | 'p' :: 'r' :: 'o' :: 'c' :: s6 =>
      match s6.dropWhile isSpace with
      | '(' :: s8 =>
        let inner := s8.takeWhile (fun c => c ≠ ')')
        match s8.dropWhile (fun c => c ≠ ')') with
        | ')' :: s10 =>
          let base := '(' :: (inner ++ [')'])
          let w1 := s10.takeWhile isSpace
          match s10.dropWhile isSpace with
          | '-' :: '>' :: s12 =>
            let w2 := s12.takeWhile isSpace
            let s13 := s12.dropWhile isSpace
            let ty := s13.takeWhile isWordChar
            if ty = [] then some (name, base, s10)
            else some (name, base ++ w1 ++ '-' :: '>' :: (w2 ++ ty), s13.dropWhile isWordChar)
          | _ => some (name, base, s10)
        | _ => none
      | _ => none
    | _ => none
  | _ => none

/-- The lazy comment body `([\s\S]*?)\*/` followed by `matchDecl`, starting
just after a `/*`: try each occurrence of `*/` from the left; on failure of
the declaration part the lazy quantifier extends the body past that `*/`.
Returns `(body, name, signature, rest)`. -/
def tryMatch (acc : List Char) : List Char → Option (List Char × List Char × List Char × List Char)
  | [] => none
  | [_] => none
  | a :: b :: t =>
    if a = '*' && b = '/' then
      match matchDecl t with
      | some (n, s, r) => some (acc, n, s, r)
      | none => tryMatch (acc ++ [a]) (b :: t)
    else tryMatch (acc ++ [a]) (b :: t)

/-- `re.finditer` over the whole input: at each `/*` attempt the pattern,
consume the match on success and continue after it, else advance one
character.  The fuel argument only serves termination; each step consumes
at least one character, so `length + 1` fuel always suffices. -/
def scanF : Nat → List Char → List (List Char × List Char × List Char)
  | 0, _ => []
  | fuel + 1, l =>
    match l with
    | '/' :: '*' :: t =>
      match tryMatch [] t with
      | some (body, n, s, rest) => (body, n, s) :: scanF fuel rest
      | none => scanF fuel ('*' :: t)
    | _ :: t => scanF fuel t
    | [] => []

/-- `extract_docs` (lines 7-42 of `doc_gen.py`): all matches of the
documentation pattern, each turned into a `DocRecord`. -/
def extract_docs (code : String) : List DocRecord :=
  (scanF (code.data.length + 1) code.data).map (fun t => mkDocRecord t.1 t.2.1 t.2.2)

/-- One character's replacement under `html.escape(s)` (quote=True): the
five special characters become entities, all else is unchanged.  The
sequential `str.replace` calls of CPython's `html.escape` are equivalent
to this character-wise map because no replacement output re-contains a
character replaced later. -/
def escapeChar (c : Char) : List Char :=
  if c = '&' then "&amp;".data
  else if c = '<' then "&lt;".data
  else if c = '>' then "&gt;".data
  else if c = '"' then "&quot;".data
  else if c = Char.ofNat 39 then "&#x27;".data
  else [c]

/-- `html.escape` on a character list. -/
def htmlEscapeL (l : List Char) : List Char :=
  (l.map escapeChar).flatten

/-- `html.escape` on a `String`. -/
def htmlEscape (s : String) : String :=
  ⟨htmlEscapeL s.data⟩

/-- Drop the longest common prefix of two segment paths (the worker of
`os.path.relpath`). -/
def dropCommon : List String → List String → List String × List String
  | a :: as, b :: bs => if a = b then dropCommon as bs else (a :: as, b :: bs)
  | as, bs => (as, bs)

/-- `os.path.relpath(target, start)` on absolute segment paths, with the
posix separator (the `.replace("\\", "/")` of the source is a no-op
there): climb out of what remains of `start`, then descend into what
remains of `target`. -/
def relpath (target start : List String) : String :=
  let q := dropCommon target start
  let parts := List.replicate q.2.length ".." ++ q.1
  if parts = [] then "." else String.intercalate "/" parts

/-- The `<li>` items of the parameter list, in order (the inner loop of
lines 97-98 of `doc_gen.py`). -/
def paramsHtml : List (String × String) → String
  | [] => ""
  | q :: t =>
    "    <li><span class='param-name'>" ++ htmlEscape q.1 ++ "</span>: " ++
    htmlEscape q.2 ++ "</li>\n" ++ paramsHtml t

/-- The HTML of one `<section>` for one `DocRecord` (lines 90-102 of
`doc_gen.py`). -/
def sectionHtml (d : DocRecord) : String :=
  "<section>\n" ++
  "  <h2>" ++ htmlEscape d.func ++ "</h2>\n" ++
  "  <pre class='code'>" ++ htmlEscape (d.func ++ " " ++ d.signature) ++ "</pre>\n" ++
  "  <p>" ++ htmlEscape d.description ++ "</p>\n" ++
  (if d.params = [] then "" else
    "  <div class='params'><strong>Parameters:</strong><ul>\n" ++
    paramsHtml d.params ++
    "  </ul></div>\n") ++
  (if d.ret = "" then "" else
    "  <div class='return'>Returns: " ++ htmlEscape d.ret ++ "</div>\n") ++
  "</section>\n"

/-- The concatenated sections of a page, in record order (the outer loop
of lines 90-102 of `doc_gen.py`). -/
def sectionsHtml : List DocRecord → String
  | [] => ""
  | d :: t => sectionHtml d ++ sectionsHtml t

/-- The page template up to the `<title>` interpolation. -/
def pageHead : String :=
  "<!DOCTYPE html>\n<html lang=\"en\">\n<head>\n<meta charset=\"UTF-8\" />\n" ++
  "<meta name=\"viewport\" content=\"width=device-width, initial-scale=1\" />\n" ++
  "<title>Documentation for "

/-- The page template between the `<title>` and `<header>` interpolations:
the inline stylesheet, verbatim (the doubled braces of the Python f-string
denote literal braces). -/
def pageStyle : String :=
  "</title>\n<style>\nbody \x7b margin: 0; font-family: Arial, sans-serif; background: #121212; color: #eee; \x7d\n" ++
  "a \x7b text-decoration: none; color: #80cbc4; \x7d\n" ++
  "a:hover \x7b text-decoration: underline; \x7d\n" ++
  "header \x7b padding: 1rem; background: #1e1e1e; font-size: 1.5rem; color: #80cbc4; \x7d\n" ++
  "main \x7b display: flex; min-height: 100vh; \x7d\n" ++
  "nav \x7b width: 250px; background: #1e1e1e; padding: 1rem; overflow-y: auto; \x7d\n" ++
  "nav details \x7b margin-bottom: 0.5rem; \x7d\n" ++
  "nav summary \x7b cursor: pointer; user-select: none; \x7d\n" ++
  "nav .file \x7b display: block; \x7d\n" ++
  "nav .folder::before \x7b content: \"📂 \"; \x7d\n" ++
  "nav .file::before \x7b content: \"📄 \"; \x7d\n" ++
  "nav .file.current a \x7b font-weight: bold; color: #ffb74d; \x7d\n" ++
  "article \x7b flex: 1; padding: 2rem; \x7d\n" ++
  ".back-index \x7b margin-bottom: 1rem; \x7d\n" ++
  "section \x7b background: #1e1e1e; border-radius: 8px; padding: 1rem; margin-bottom: 2rem; box-shadow: 0 0 8px #000; \x7d\n" ++
  "h2 \x7b color: #4db6ac; \x7d\n" ++
  "pre \x7b background: #263238; padding: 0.8em 1em; border-radius: 4px; overflow-x: auto; color: #cfd8dc; \x7d\n" ++
  ".code \x7b font-family: monospace; \x7d\n" ++
  ".params ul \x7b padding-left: 1.2em; \x7d\n" ++
  ".params li \x7b margin-bottom: 0.3em; \x7d\n" ++
  ".param-name \x7b font-weight: 600; color: #80cbc4; \x7d\n" ++
  ".return \x7b font-weight: 600; color: #a5d6a7; margin-top: 1em; \x7d\n" ++
  "</style>\n</head>\n<body>\n<header>"

/-- The page template between the `<header>` and sidebar interpolations. -/
def pageAfterHeader : String := "</header>\n<main>\n<nav>\n"

/-- The page template between the sidebar and back-link interpolations. -/
def pageBeforeBack : String := "\n</nav>\n<article>\n<div class=\"back-index\"><a href=\""

/-- The page template after the back-link interpolation. -/
def pageAfterBack : String := "\">⬅ Back to Index</a></div>\n"

/-- The closing tags appended after the sections (line 104 of `doc_gen.py`). -/
def pageTail : String := "</article>\n</main>\n</body>\n</html>"

/-- The `rel_index` computation of lines 45-48 of `doc_gen.py`:
`current_file_path` and `out_dir` are segment paths when given, `None`
otherwise (falsy values take the `"index.html"` branch). -/
def relIndexOf (current_file_path : Option (List String)) (out_dir : Option (List String)) : String :=
  match current_file_path, out_dir with
  | some cur, some root => relpath (root ++ ["index.html"]) cur.dropLast
  | _, _ => "index.html"

/-- The f-string part of the page (lines 50-89 of `doc_gen.py`):
everything before the per-record sections. -/
def pagePrefix (filename : String) (sidebar_html : String)
    (current_file_path : Option (List String)) (out_dir : Option (List String)) : String :=
  pageHead ++ filename ++ pageStyle ++ filename ++ pageAfterHeader ++ sidebar_html ++
  pageBeforeBack ++ relIndexOf current_file_path out_dir ++ pageAfterBack

/-- `generate_html` (lines 44-105 of `doc_gen.py`). -/
def generate_html (docs : List DocRecord) (filename : String) (sidebar_html : String)
    (current_file_path : Option (List String)) (out_dir : Option (List String)) : String :=
  pagePrefix filename sidebar_html current_file_path out_dir ++
  sectionsHtml docs ++ pageTail

mutual
/-- A value of the nested sidebar dictionary `docs_dict`: either a file
leaf holding the resolved output path (`str(html_path.resolve())`, here a
segment path) or a sub-dictionary. -/
inductive DVal where
  | file : List String → DVal
  | dir : DEntries → DVal
/-- A Python dict as its `(key, value)` pairs in insertion order. -/
inductive DEntries where
  | nil : DEntries
  | cons : String → DVal → DEntries → DEntries
end

mutual
/-- Node count of a subtree (leaf paths not counted): the render fuel. -/
def sizeV : DVal → Nat
  | .file _ => 1
  | .dir es => sizeE es + 1
/-- Node count of a dictionary's entries. -/
def sizeE : DEntries → Nat
  | .nil => 0
  | .cons _ v t => sizeV v + sizeE t + 1
end

/-- Dictionary lookup in insertion-ordered entries. -/
def lookupKey : DEntries → String → Option DVal
  | .nil, _ => none
  | .cons k v t, key => if k = key then some v else lookupKey t key

/-- Dictionary assignment `d[key] = v`: an existing key keeps its position,
a new key is appended. -/
def setEntry : DEntries → String → DVal → DEntries
  | .nil, key, v => .cons key v .nil
  | .cons k w t, key, v => if k = key then .cons key v t else .cons k w (setEntry t key v)

/-- Whether the `setdefault` descent of lines 161-163 of `doc_gen.py`
stays on dictionaries: it reaches a string value only when a folder and a
file of the same name collide, and then the Python crashes (a string has
no `setdefault`).  The model guards insertion with this check and reports
such a run as aborted. -/
def insertOk : DEntries → List String → Bool
  | _, [] => true
  | entries, p :: rest =>
    match lookupKey entries p with
    | some (.dir sub) => insertOk sub rest
    | some (.file _) => false
    | none => true

/-- The `docs_dict` insertion of lines 161-164 of `doc_gen.py`: descend
`rel_folder.parts` creating sub-dictionaries, then assign
`d[file] = str(html_path.resolve())`.  On the collision `insertOk`
excludes, the entries are returned unchanged (the Python raises there). -/
def insertTree (entries : DEntries) : List String → String → List String → DEntries
  | [], fname, path => setEntry entries fname (.file path)
  | p :: rest, fname, path =>
    match lookupKey entries p with
    | some (.dir sub) => setEntry entries p (.dir (insertTree sub rest fname path))
    | some (.file _) => entries
    | none => setEntry entries p (.dir (insertTree .nil rest fname path))

/-- Python string comparison (`<` on `str`): lexicographic by code point. -/
def strLt : List Char → List Char → Bool
  | [], [] => false
  | [], _ :: _ => true
  | _ :: _, [] => false
  | a :: as, b :: bs =>
    if a.toNat < b.toNat then true
    else if b.toNat < a.toNat then false
    else strLt as bs

/-- Ordered insertion for `sorted(d.items())` (keys are unique, so the
key comparison alone decides the order). -/
def insSorted (k : String) (v : DVal) : DEntries → DEntries
  | .nil => .cons k v .nil
  | .cons k' v' t =>
    if strLt k.data k'.data then .cons k v (.cons k' v' t)
    else .cons k' v' (insSorted k v t)

/-- `sorted(d.items())` (insertion sort; stability is irrelevant because
dictionary keys are unique). -/
def sortE : DEntries → DEntries
  | .nil => .nil
  | .cons k v t => insSorted k v (sortE t)

mutual
/-- The nested `has_current` of lines 115-124 of `doc_gen.py` on one
value: whether some file leaf below it holds exactly the path `cur`
(paths are already resolved in the model). -/
def hasCurV (cur : List String) : DVal → Bool
  | .file p => p = cur
  | .dir es => hasCurE cur es
/-- `has_current`'s loop over a dictionary's items. -/
def hasCurE (cur : List String) : DEntries → Bool
  | .nil => false
  | .cons _ v t => hasCurV cur v || hasCurE cur t
end

/-- `has_current(child)` on a child dictionary. -/
def has_current (cur : List String) (child : DEntries) : Bool :=
  hasCurE cur child

/-- The `open_attr` of line 125 of `doc_gen.py`. -/
def openAttrOf (cur : List String) (child : DEntries) : String :=
  if has_current cur child then " open" else ""

/-- The path-containment property `has_current` computes: some `.file`
leaf in the subtree holds exactly the current page's path. -/
inductive Contains (cur : List String) : DVal → Prop where
  | file : Contains cur (DVal.file cur)
  | head : ∀ (k : String) (v : DVal) (t : DEntries),
      Contains cur v → Contains cur (DVal.dir (DEntries.cons k v t))
  | tail : ∀ (k : String) (v : DVal) (t : DEntries),
      Contains cur (DVal.dir t) → Contains cur (DVal.dir (DEntries.cons k v t))

/-- The indent number `depth * 1.5` as Python formats the float (exact
halves: one digit after the point). -/
def indentStr (depth : Nat) : String :=
  toString (depth * 15 / 10) ++ "." ++ toString (depth * 15 % 10)

/-- The `style` string of line 113 of `doc_gen.py`. -/
def styleOf (depth : Nat) : String :=
  "padding-left: " ++ indentStr depth ++ "em;"

/-- Fueled worker for `render_tree` (lines 107-134 of `doc_gen.py`),
applied to entries already sorted at the current level: a dictionary
value becomes a collapsible `<details>` (open exactly when `has_current`)
wrapping the recursive render of its sorted items, a string value becomes
a file link relative to the current page's directory, as the loop of
lines 111-133 emits them.  The fuel argument only serves termination (it
decreases into sub-dictionaries and along the iteration; the wrapper
always supplies enough).  The `parent_path` argument of the source is
never read and is dropped; `out_dir` is only forwarded and is dropped. -/
def renderF (cur : List String) : Nat → Nat → DEntries → String
  | 0, _, _ => ""
  | _ + 1, _, .nil => ""
  | fuel + 1, depth, .cons k v t =>
    (match v with
     | .dir sub =>
       "<details class='folder' style='" ++ styleOf depth ++ "'" ++ openAttrOf cur sub ++
       "><summary>" ++ htmlEscape k ++ "</summary>\n" ++
       renderF cur fuel (depth + 1) (sortE sub) ++
       "</details>\n"
     | .file target =>
       "<div class=\"file\"" ++ (if target = cur then " class='current'" else "") ++
       " style=\"" ++ styleOf depth ++ "\"><a href=\"" ++ relpath target cur.dropLast ++
       "\">" ++ htmlEscape k ++ "</a></div>\n") ++
    renderF cur fuel depth t

/-- `render_tree(d, current_file_path, out_dir)` with enough fuel for the
whole tree. -/
def render_tree (d : DEntries) (current_file_path : List String) : String :=
  renderF current_file_path (sizeE d + 1) 0 (sortE d)

/-- One candidate file of the walked source tree: the folder path relative
to `src_dir` (in walk order), the file name, and the result of
`read_text` (`none` models a decode/IO error being raised). -/
structure SrcFile where
  dirParts : List String
  fname : String
  content : Option String
deriving DecidableEq

/-- `file.endswith(".odin")`. -/
def endsOdin (n : String) : Bool :=
  isPrefixList ".odin".data.reverse n.data.reverse

/-- `file.replace(".odin", ".html")` as a `String`. -/
def htmlName (n : String) : String :=
  ⟨replOdin n.data⟩

/-- How a run ends early: `unreadable` models the uncaught exception of
`read_text` (line 148 of `doc_gen.py`), `badTree` the crash of the
`setdefault` descent on a folder/file name collision. -/
inductive RunError where
  | unreadable
  | badTree
deriving DecidableEq

/-- The driver state: the shared `docs_dict` and the output files written
so far (absolute segment path of the page, page bytes). -/
structure GenState where
  tree : DEntries
  outputs : List (List String × String)

/-- The body of the walk loop for one candidate file (lines 145-172 of
`doc_gen.py`): skip non-`.odin` names, abort on a read error, skip files
with no extracted docs, else insert into `docs_dict`, render the sidebar
from the tree accumulated so far and write the page. -/
def processFile (out_dir : List String) (st : GenState) (f : SrcFile) : Except RunError GenState :=
  if endsOdin f.fname then
    match f.content with
    | none => .error .unreadable
    | some code =>
      let docs := extract_docs code
      if docs = [] then .ok st
      else
        let html_path := out_dir ++ f.dirParts ++ [htmlName f.fname]
        if insertOk st.tree f.dirParts then
          let tree' := insertTree st.tree f.dirParts f.fname html_path
          let sidebar := render_tree tree' html_path
          let content := generate_html docs f.fname sidebar (some html_path) (some out_dir)
          .ok ⟨tree', st.outputs ++ [(html_path, content)]⟩
        else .error .badTree
  else .ok st

/-- The walk loop over all candidate files, stopping at the first raised
error (pages already written stay written). -/
def processFiles (out_dir : List String) (st : GenState) : List SrcFile → GenState × Option RunError
  | [] => (st, none)
  | f :: rest =>
    match processFile out_dir st f with
    | .ok st' => processFiles out_dir st' rest
    | .error e => (st, some e)

/-- `generate_docs_for_dir` (lines 136-178 of `doc_gen.py`) on the files
the walk enumerates, in walk order: process every candidate file, then
(when no exception aborted the run) write `index.html` at the output
root.  Directory creation and the ignore filter happen before this model
(its input is the walked file list). -/
def generate_docs_for_dir (out_dir : List String) (files : List SrcFile) :
    List (List String × String) × Option RunError :=
  let r := processFiles out_dir ⟨.nil, []⟩ files
  match r.2 with
  | some e => (r.1.outputs, some e)
  | none =>
    let index_path := out_dir ++ ["index.html"]
    let sidebar := render_tree r.1.tree index_path
    (r.1.outputs ++ [(index_path, generate_html [] "Index" sidebar (some index_path) (some out_dir))], none)

/-- Whether a character list contains the comment closer `*/` (used to
state that a comment body is well formed: it closes only at its end). -/
def hasClose : List Char → Bool
  | [] => false
  | [_] => false
  | a :: b :: t => (a = '*' && b = '/') || hasClose (b :: t)

/-- Whether the pipeline documents a file: an `.odin` name, readable, with
at least one extracted record (files failing this produce no page). -/
def isProcessed (f : SrcFile) : Bool :=
  endsOdin f.fname &&
    (match f.content with
     | none => false
     | some code => !(extract_docs code).isEmpty)

/-- The output path of a documented file. -/
def outPathOf (out_dir : List String) (f : SrcFile) : List String :=
  out_dir ++ f.dirParts ++ [htmlName f.fname]

/-- One `docs_dict` insertion step for a documented file. -/
def insertFile (out_dir : List String) (t : DEntries) (f : SrcFile) : DEntries :=
  insertTree t f.dirParts f.fname (outPathOf out_dir f)

/-- The sidebar tree after the first `k` documented files of the run. -/
def treeAfter (out_dir : List String) (files : List SrcFile) (k : Nat) : DEntries :=
  ((files.filter isProcessed).take k).foldl (insertFile out_dir) .nil

/-- The page bytes the pipeline writes for documented file `f` when the
sidebar tree is `t` (with `f` already inserted). -/
def pageBytes (out_dir : List String) (t : DEntries) (f : SrcFile) : String :=
  generate_html (extract_docs (f.content.getD "")) f.fname
    (render_tree t (outPathOf out_dir f)) (some (outPathOf out_dir f)) (some out_dir)

/-- The index page bytes for the final tree `t`. -/
def indexBytes (out_dir : List String) (t : DEntries) : String :=
  generate_html [] "Index" (render_tree t (out_dir ++ ["index.html"]))
    (some (out_dir ++ ["index.html"])) (some out_dir)

mutual
/-- A sidebar value with the output root `r` prepended to every file
leaf's path: relates the trees of runs into different output roots. -/
def addRootV (r : List String) : DVal → DVal
  | .file p => .file (r ++ p)
  | .dir es => .dir (addRootE r es)
/-- `addRootV` over a dictionary's entries. -/
def addRootE (r : List String) : DEntries → DEntries
  | .nil => .nil
  | .cons k v t => .cons k (addRootV r v) (addRootE r t)
end

/-- The outputs of a run with every path stripped of the output root: what
must coincide between two runs of the generator for the output bytes to be
identical. -/
def relOutputs (out_dir : List String) (r : List (List String × String) × Option RunError) :
    List (List String × String) × Option RunError :=
  (r.1.map (fun pc => (pc.1.drop out_dir.length, pc.2)), r.2)

/-- Example source file `a.odin` (documented). -/
def exFileA : SrcFile :=
  ⟨[], "a.odin", some "/* doc of af */ af :: proc(x: int) -> int"⟩

/-- Example source file `b.odin` (documented). -/
def exFileB : SrcFile :=
  ⟨[], "b.odin", some "/* doc of bf */ bf :: proc()"⟩

/-- Example unreadable source file: `read_text` raises on it. -/
def exFileBad : SrcFile :=
  ⟨[], "bad.odin", none⟩

/-- Example documentation record whose text fields carry HTML markup. -/
def exRecord : DocRecord :=
  { func := "f<script>"
    description := "runs <script>alert(1)</script> now"
    params := [("p<script>", "q<script>r")]
    ret := "a <script> tag"
    signature := "(x: <script>)" }

/-- Whether a (stripped) comment line is an `@param` line. -/
def isParamLine (line : List Char) : Bool :=
  isPrefixList "@param".data line

/-- Whether a (stripped) comment line is an `@return` line. -/
def isReturnLine (line : List Char) : Bool :=
  isPrefixList "@return".data line

/-- The parameter entry an `@param` line contributes: `(name, description)`
from `split(None, 2)` when it has three parts, else the whole line with an
empty description. -/
def paramEntry (line : List Char) : List Char × List Char :=
  match pySplitWs2 line with
  | [_, pname, pdesc] => (pname, pdesc)
  | _ => (line, [])

/-- The return text an `@return` line contributes:
`line[len("@return"):].strip()`. -/
def retText (line : List Char) : List Char :=
  pyStrip (line.drop 7)

/-- The pages a successful run writes for the documented files `pf`,
starting from the sidebar tree `t`: each page is rendered right after its
own insertion into the tree. -/
def pagesList (out_dir : List String) (t : DEntries) : List SrcFile → List (List String × String)
  | [] => []
  | f :: fs =>
    (outPathOf out_dir f, pageBytes out_dir (insertFile out_dir t f) f) ::
      pagesList out_dir (insertFile out_dir t f) fs

/-! ## Helper lemmas: substrings and escaping -/

theorem isPrefixList_iff (n h : List Char) :
    isPrefixList n h = true ↔ ∃ t, h = n ++ t := by
  induction n generalizing h with
  | nil => simp [isPrefixList]
  | cons a as ih =>
    cases h with
    | nil => simp [isPrefixList]
    | cons b bs =>
      simp only [isPrefixList, Bool.and_eq_true, decide_eq_true_eq, ih, List.cons_append]
      constructor
      · rintro ⟨rfl, t, rfl⟩
        exact ⟨t, rfl⟩
      · rintro ⟨t, h⟩
        injection h with h1 h2
        exact ⟨h1.symm, t, h2⟩

theorem containsSeg_iff (n h : List Char) :
    containsSeg n h = true ↔ ∃ u v, h = u ++ n ++ v := by
  induction h with
  | nil =>
    rw [show containsSeg n [] = isPrefixList n [] from rfl, isPrefixList_iff]
    constructor
    · rintro ⟨t, ht⟩
      obtain ⟨rfl, rfl⟩ := List.append_eq_nil.mp ht.symm
      exact ⟨[], [], rfl⟩
    · rintro ⟨u, v, huv⟩
      obtain ⟨h4, rfl⟩ := List.append_eq_nil.mp huv.symm
      obtain ⟨rfl, rfl⟩ := List.append_eq_nil.mp h4
      exact ⟨[], rfl⟩
  | cons c t ih =>
    simp only [containsSeg, Bool.or_eq_true, isPrefixList_iff, ih]
    constructor
    · rintro (⟨v, hv⟩ | ⟨u, v, rfl⟩)
      · exact ⟨[], v, by simpa using hv⟩
      · exact ⟨c :: u, v, rfl⟩
    · rintro ⟨u, v, huv⟩
      cases u with
      | nil => exact Or.inl ⟨v, by simpa using huv⟩
      | cons d u' =>
        injection huv with h1 h2
        exact Or.inr ⟨u', v, h2⟩

theorem containsSeg_refl (n : List Char) : containsSeg n n = true :=
  (containsSeg_iff n n).mpr ⟨[], [], by simp⟩

theorem containsSeg_append_right (n a b : List Char) (h : containsSeg n b = true) :
    containsSeg n (a ++ b) = true := by
  rw [containsSeg_iff] at h ⊢
  obtain ⟨u, v, rfl⟩ := h
  exact ⟨a ++ u, v, by simp⟩

theorem containsSeg_append_left (n a b : List Char) (h : containsSeg n a = true) :
    containsSeg n (a ++ b) = true := by
  rw [containsSeg_iff] at h ⊢
  obtain ⟨u, v, rfl⟩ := h
  exact ⟨u, v ++ b, by simp⟩

theorem containsSeg_trans (a b c : List Char) (h1 : containsSeg a b = true)
    (h2 : containsSeg b c = true) : containsSeg a c = true := by
  rw [containsSeg_iff] at h1 h2 ⊢
  obtain ⟨u, v, rfl⟩ := h1
  obtain ⟨x, y, rfl⟩ := h2
  exact ⟨x ++ u, v ++ y, by simp⟩

theorem htmlEscapeL_append (a b : List Char) :
    htmlEscapeL (a ++ b) = htmlEscapeL a ++ htmlEscapeL b := by
  simp [htmlEscapeL]

theorem escapeChar_ne_angle (c : Char) : ∀ x ∈ escapeChar c, x ≠ '<' ∧ x ≠ '>' := by
  intro x hx
  unfold escapeChar at hx
  split_ifs at hx with h1 h2 h3 h4 h5
  · exact (by decide : ∀ y ∈ "&amp;".data, y ≠ '<' ∧ y ≠ '>') x hx
  · exact (by decide : ∀ y ∈ "&lt;".data, y ≠ '<' ∧ y ≠ '>') x hx
  · exact (by decide : ∀ y ∈ "&gt;".data, y ≠ '<' ∧ y ≠ '>') x hx
  · exact (by decide : ∀ y ∈ "&quot;".data, y ≠ '<' ∧ y ≠ '>') x hx
  · exact (by decide : ∀ y ∈ "&#x27;".data, y ≠ '<' ∧ y ≠ '>') x hx
  · simp only [List.mem_singleton] at hx
    subst hx
    exact ⟨h2, h3⟩

theorem htmlEscapeL_ne_angle (l : List Char) :
    ∀ x ∈ htmlEscapeL l, x ≠ '<' ∧ x ≠ '>' := by
  intro x hx
  simp only [htmlEscapeL, List.mem_flatten, List.mem_map] at hx
  obtain ⟨piece, ⟨c, _, rfl⟩, hmem⟩ := hx
  exact escapeChar_ne_angle c x hmem

theorem containsSeg_escape_mono (m s : List Char) (h : containsSeg m s = true) :
    containsSeg (htmlEscapeL m) (htmlEscapeL s) = true := by
  rw [containsSeg_iff] at h
  obtain ⟨u, v, rfl⟩ := h
  rw [containsSeg_iff]
  exact ⟨htmlEscapeL u, htmlEscapeL v, by simp [htmlEscapeL_append]⟩

/-! ## C5: the worked example of the spec -/

/-- C5: on the spec's concrete input (the `/** Adds two numbers. ... */`
comment followed by `add :: proc(a, b: int) -> int`), `extract_docs`
returns exactly the record with name `add`, description
`Adds two numbers.`, params `[(a, first), (b, second)]`, return `sum`,
and signature `(a, b: int) -> int`, verbatim. -/
theorem c5_extract_example :
    extract_docs "/** Adds two numbers.\n@param a first\n@param b second\n@return sum */\nadd :: proc(a, b: int) -> int" =
      [{ func := "add", description := "Adds two numbers.",
         params := [("a", "first"), ("b", "second")], ret := "sum",
         signature := "(a, b: int) -> int" }] := by
  decide

/-! ## C6, C7: the tag-parser loop -/

theorem return_not_param (l : List Char) (h : isPrefixList "@return".data l = true) :
    isPrefixList "@param".data l = false := by
  rw [isPrefixList_iff] at h
  obtain ⟨t, rfl⟩ := h
  by_contra hc
  rw [Bool.not_eq_false, isPrefixList_iff] at hc
  obtain ⟨t', ht'⟩ := hc
  have e1 : ("@return").data = ['@', 'r', 'e', 't', 'u', 'r', 'n'] := rfl
  have e2 : ("@param").data = ['@', 'p', 'a', 'r', 'a', 'm'] := rfl
  rw [e1, e2] at ht'
  simp at ht'

theorem tagStep_params (st : TagState) (l : List Char) :
    (tagStep st l).2.1 = if isParamLine l then st.2.1 ++ [paramEntry l] else st.2.1 := by
  unfold tagStep paramEntry isParamLine
  by_cases h1 : isPrefixList "@param".data l = true
  · simp only [h1, if_true]
    split <;> rfl
  · rw [Bool.not_eq_true] at h1
    simp only [h1, Bool.false_eq_true, if_false]
    split <;> rfl

theorem tagStep_desc_ret (st : TagState) (l : List Char) :
    (tagStep st l).2.2 = if isReturnLine l then retText l else st.2.2 := by
  unfold tagStep retText isReturnLine
  by_cases h2 : isPrefixList "@return".data l = true
  · have h1 : isPrefixList "@param".data l = false := return_not_param l h2
    simp only [h1, Bool.false_eq_true, if_false, h2, if_true]
  · rw [Bool.not_eq_true] at h2
    simp only [h2, Bool.false_eq_true, if_false]
    by_cases h1 : isPrefixList "@param".data l = true
    · simp only [h1, if_true]
      split <;> rfl
    · rw [Bool.not_eq_true] at h1
      simp only [h1, Bool.false_eq_true, if_false]

theorem foldl_tagStep_params (lines : List (List Char)) (st : TagState) :
    (lines.foldl tagStep st).2.1 = st.2.1 ++ (lines.filter isParamLine).map paramEntry := by
  induction lines generalizing st with
  | nil => simp
  | cons l t ih =>
    rw [List.foldl_cons, ih, tagStep_params]
    by_cases hp : isParamLine l
    · simp [hp]
    · simp [hp]

theorem getLast?_getD_cons (a : List Char) (xs : List (List Char)) (d : List Char) :
    ((a :: xs).getLast?).getD d = (xs.getLast?).getD a := by
  cases xs with
  | nil => rfl
  | cons b ys =>
    rw [List.getLast?_cons_cons]
    have h : (b :: ys).getLast?.isSome := by
      rw [List.getLast?_isSome]
      simp
    obtain ⟨x, hx⟩ := Option.isSome_iff_exists.mp h
    rw [hx]
    rfl

theorem foldl_tagStep_ret (lines : List (List Char)) (st : TagState) :
    (lines.foldl tagStep st).2.2 =
      (((lines.filter isReturnLine).map retText).getLast?).getD st.2.2 := by
  induction lines generalizing st with
  | nil => simp
  | cons l t ih =>
    rw [List.foldl_cons, ih]
    by_cases hr : isReturnLine l
    · rw [List.filter_cons_of_pos hr, List.map_cons, getLast?_getD_cons,
        tagStep_desc_ret, if_pos hr]
    · rw [List.filter_cons_of_neg (by simp [hr]), tagStep_desc_ret, if_neg hr]

/-- C6: the parameter list of every extracted record lists exactly the
`@param` lines of the comment, in their order of appearance, with no
deduplication; in particular tagging `a`, `b`, `c` in that order yields
the list `[a, b, c]`. -/
theorem c6_param_order :
    (∀ body name sig : List Char,
      (mkDocRecord body name sig).params =
        ((linesOfComment body).filter isParamLine).map
          (fun l => (⟨(paramEntry l).1⟩, ⟨(paramEntry l).2⟩))) ∧
    (mkDocRecord "@param a da\n@param b db\n@param c dc".data "n".data "()".data).params =
      [("a", "da"), ("b", "db"), ("c", "dc")] := by
  constructor
  · intro body name sig
    unfold mkDocRecord
    simp only [foldl_tagStep_params, List.nil_append, List.map_map]
    rfl
  · decide

/-- C7: the return field of every extracted record is the text (after the
tag, trimmed) of the last `@return` line of the comment: each `@return`
line overwrites the previously stored value. -/
theorem c7_last_return_wins (body name sig l : List Char)
    (h : (((linesOfComment body).filter isReturnLine).map retText).getLast? = some l) :
    (mkDocRecord body name sig).ret = ⟨l⟩ := by
  unfold mkDocRecord
  simp only [foldl_tagStep_ret, h, Option.getD_some]

/-- Witness for C7 at a concrete comment with two `@return` lines: the
second one's text is kept. -/
theorem c7_last_return_wins_witness :
    (mkDocRecord "d\n@return first txt\n@return second txt".data "n".data "()".data).ret =
      "second txt" := by
  have h := c7_last_return_wins "d\n@return first txt\n@return second txt".data
    "n".data "()".data "second txt".data (by decide)
  exact h

/-! ## C3, C10: escaping in the page renderer -/

theorem containsSeg_str_middle (s1 mid s2 : String) :
    containsSeg mid.data (s1 ++ mid ++ s2).data = true :=
  (containsSeg_iff _ _).mpr ⟨s1.data, s2.data, by simp [String.data_append]⟩

theorem sectionsHtml_mem (d : DocRecord) (docs : List DocRecord) (hd : d ∈ docs) :
    containsSeg (sectionHtml d).data (sectionsHtml docs).data = true := by
  induction docs with
  | nil => cases hd
  | cons e t ih =>
    rw [show sectionsHtml (e :: t) = sectionHtml e ++ sectionsHtml t from rfl,
      String.data_append]
    rcases List.mem_cons.mp hd with rfl | hmem
    · exact containsSeg_append_left _ _ _ (containsSeg_refl _)
    · exact containsSeg_append_right _ _ _ (ih hmem)

theorem paramsHtml_mem (pn pd : String) (ps : List (String × String)) (h : (pn, pd) ∈ ps) :
    containsSeg ("    <li><span class='param-name'>" ++ htmlEscape pn ++ "</span>: " ++
        htmlEscape pd ++ "</li>\n").data (paramsHtml ps).data = true := by
  induction ps with
  | nil => cases h
  | cons q t ih =>
    rw [show paramsHtml (q :: t) =
      ("    <li><span class='param-name'>" ++ htmlEscape q.1 ++ "</span>: " ++
        htmlEscape q.2 ++ "</li>\n") ++ paramsHtml t from rfl, String.data_append]
    rcases List.mem_cons.mp h with heq | hmem
    · subst heq
      exact containsSeg_append_left _ _ _ (containsSeg_refl _)
    · exact containsSeg_append_right _ _ _ (ih hmem)

theorem sections_in_page (docs : List DocRecord) (fname sidebar : String)
    (cur root : Option (List String)) (n : List Char)
    (h : containsSeg n (sectionsHtml docs).data = true) :
    containsSeg n (generate_html docs fname sidebar cur root).data = true := by
  unfold generate_html
  rw [String.data_append, String.data_append]
  exact containsSeg_append_left _ _ _ (containsSeg_append_right _ _ _ h)

theorem escaped_in_page (docs : List DocRecord) (fname sidebar : String)
    (cur root : Option (List String)) (d : DocRecord) (hd : d ∈ docs) (field : String)
    (hsec : containsSeg (htmlEscape field).data (sectionHtml d).data = true)
    (hs : containsSeg "<script>".data field.data = true) :
    containsSeg "&lt;script&gt;".data (generate_html docs fname sidebar cur root).data = true := by
  have h1 : containsSeg "&lt;script&gt;".data (htmlEscape field).data = true := by
    have h := containsSeg_escape_mono _ _ hs
    rwa [show htmlEscapeL "<script>".data = "&lt;script&gt;".data from by decide] at h
  have h2 := containsSeg_trans _ _ _ h1 hsec
  have h3 := containsSeg_trans _ _ _ h2 (sectionsHtml_mem d docs hd)
  exact sections_in_page _ _ _ _ _ _ h3

theorem desc_in_section (d : DocRecord) :
    containsSeg (htmlEscape d.description).data (sectionHtml d).data = true := by
  simp only [sectionHtml, String.data_append, List.append_assoc]
  repeat
    first
    | exact containsSeg_refl _
    | exact containsSeg_append_left _ _ _ (containsSeg_refl _)
    | apply containsSeg_append_right

theorem func_in_section (d : DocRecord) :
    containsSeg (htmlEscape d.func).data (sectionHtml d).data = true := by
  simp only [sectionHtml, String.data_append, List.append_assoc]
  repeat
    first
    | exact containsSeg_refl _
    | exact containsSeg_append_left _ _ _ (containsSeg_refl _)
    | apply containsSeg_append_right

theorem sig_in_section (d : DocRecord) :
    containsSeg (htmlEscape d.signature).data (sectionHtml d).data = true := by
  have hsplit : (htmlEscape (d.func ++ " " ++ d.signature)).data =
      htmlEscapeL d.func.data ++ htmlEscapeL (" ").data ++ htmlEscapeL d.signature.data := by
    show htmlEscapeL ((d.func ++ " " ++ d.signature)).data = _
    rw [String.data_append, String.data_append, htmlEscapeL_append, htmlEscapeL_append]
  simp only [sectionHtml, String.data_append, List.append_assoc, hsplit]
  repeat
    first
    | exact containsSeg_refl _
    | exact containsSeg_append_left _ _ _ (containsSeg_refl _)
    | apply containsSeg_append_right

theorem ret_in_section (d : DocRecord) (hne : d.ret ≠ "") :
    containsSeg (htmlEscape d.ret).data (sectionHtml d).data = true := by
  simp only [sectionHtml, String.data_append, List.append_assoc, if_neg hne]
  repeat
    first
    | exact containsSeg_refl _
    | exact containsSeg_append_left _ _ _ (containsSeg_refl _)
    | apply containsSeg_append_right

theorem params_block_in_section (d : DocRecord) (hne : ¬(d.params = [])) :
    containsSeg (paramsHtml d.params).data (sectionHtml d).data = true := by
  simp only [sectionHtml, String.data_append, List.append_assoc, if_neg hne]
  repeat
    first
    | exact containsSeg_refl _
    | exact containsSeg_append_left _ _ _ (containsSeg_refl _)
    | apply containsSeg_append_right

/-- C3: every record field the page renderer emits (function name,
description, signature, parameter names and descriptions, return text)
passes through `html.escape`, so markup such as `<script>` appears in the
page as the escaped entity text `&lt;script&gt;`; and escaped text
contains no `<` or `>` at all, so it cannot open a tag. -/
theorem c3_fields_escaped :
    (∀ s : String, ∀ x ∈ (htmlEscape s).data, x ≠ '<' ∧ x ≠ '>') ∧
    (∀ (docs : List DocRecord) (fname sidebar : String)
      (cur root : Option (List String)) (d : DocRecord), d ∈ docs →
      (containsSeg "<script>".data d.description.data = true →
        containsSeg "&lt;script&gt;".data (generate_html docs fname sidebar cur root).data = true) ∧
      (containsSeg "<script>".data d.func.data = true →
        containsSeg "&lt;script&gt;".data (generate_html docs fname sidebar cur root).data = true) ∧
      (containsSeg "<script>".data d.signature.data = true →
        containsSeg "&lt;script&gt;".data (generate_html docs fname sidebar cur root).data = true) ∧
      (containsSeg "<script>".data d.ret.data = true →
        containsSeg "&lt;script&gt;".data (generate_html docs fname sidebar cur root).data = true) ∧
      (∀ pn pd : String, (pn, pd) ∈ d.params →
        (containsSeg "<script>".data pn.data = true →
          containsSeg "&lt;script&gt;".data (generate_html docs fname sidebar cur root).data = true) ∧
        (containsSeg "<script>".data pd.data = true →
          containsSeg "&lt;script&gt;".data (generate_html docs fname sidebar cur root).data = true))) := by
  constructor
  · intro s
    exact htmlEscapeL_ne_angle s.data
  · intro docs fname sidebar cur root d hd
    refine ⟨?_, ?_, ?_, ?_, ?_⟩
    · intro hs
      exact escaped_in_page docs fname sidebar cur root d hd d.description (desc_in_section d) hs
    · intro hs
      exact escaped_in_page docs fname sidebar cur root d hd d.func (func_in_section d) hs
    · intro hs
      exact escaped_in_page docs fname sidebar cur root d hd d.signature (sig_in_section d) hs
    · intro hs
      have hne : d.ret ≠ "" := by
        intro he
        rw [he] at hs
        revert hs
        decide
      exact escaped_in_page docs fname sidebar cur root d hd d.ret (ret_in_section d hne) hs
    · intro pn pd hmem
      have hne : ¬(d.params = []) := by
        intro he
        rw [he] at hmem
        cases hmem
      have hblock := params_block_in_section d hne
      have hitem := paramsHtml_mem pn pd d.params hmem
      constructor
      · intro hs
        have hfield : containsSeg (htmlEscape pn).data
            ("    <li><span class='param-name'>" ++ htmlEscape pn ++ "</span>: " ++
              htmlEscape pd ++ "</li>\n").data = true := by
          simp only [String.data_append, List.append_assoc]
          repeat
            first
            | exact containsSeg_refl _
            | exact containsSeg_append_left _ _ _ (containsSeg_refl _)
            | apply containsSeg_append_right
        have hsec := containsSeg_trans _ _ _ (containsSeg_trans _ _ _ hfield hitem) hblock
        exact escaped_in_page docs fname sidebar cur root d hd pn hsec hs
      · intro hs
        have hfield : containsSeg (htmlEscape pd).data
            ("    <li><span class='param-name'>" ++ htmlEscape pn ++ "</span>: " ++
              htmlEscape pd ++ "</li>\n").data = true := by
          simp only [String.data_append, List.append_assoc]
          repeat
            first
            | exact containsSeg_refl _
            | exact containsSeg_append_left _ _ _ (containsSeg_refl _)
            | apply containsSeg_append_right
        have hsec := containsSeg_trans _ _ _ (containsSeg_trans _ _ _ hfield hitem) hblock
        exact escaped_in_page docs fname sidebar cur root d hd pd hsec hs

/-- Witness for C3 at the concrete record `exRecord`, whose description,
name, signature, parameter pair and return text all contain `<script>`:
the rendered page contains the escaped entity text. -/
theorem c3_fields_escaped_witness :
    containsSeg "&lt;script&gt;".data
      (generate_html [exRecord] "f.odin" "" none none).data = true ∧
    (∀ x ∈ (htmlEscape exRecord.description).data, x ≠ '<' ∧ x ≠ '>') := by
  have h := c3_fields_escaped
  constructor
  · exact ((h.2 [exRecord] "f.odin" "" none none exRecord (by decide)).1) (by decide)
  · exact fun x hx => h.1 exRecord.description x hx

set_option maxRecDepth 100000 in
/-- C10: `generate_html` interpolates the source filename into the page's
`<title>` and `<header>` elements without HTML escaping — the raw
filename text stands verbatim between the tags, for every filename
(markup characters included), unlike the record fields, which are all
escaped. -/
theorem c10_filename_verbatim (docs : List DocRecord) (filename sidebar : String)
    (cur root : Option (List String)) :
    containsSeg ("<title>Documentation for " ++ filename ++ "</title>").data
      (generate_html docs filename sidebar cur root).data = true ∧
    containsSeg ("<header>" ++ filename ++ "</header>").data
      (generate_html docs filename sidebar cur root).data = true := by
  constructor
  · obtain ⟨u, hu⟩ : ∃ u, pageHead.data = u ++ "<title>Documentation for ".data :=
      ⟨pageHead.data.take (pageHead.data.length - 25), by rfl⟩
    obtain ⟨w, hw⟩ : ∃ w, pageStyle.data = "</title>".data ++ w :=
      ⟨pageStyle.data.drop 8, by rfl⟩
    refine (containsSeg_iff _ _).mpr
      ⟨u, w ++ filename.data ++ pageAfterHeader.data ++ sidebar.data ++
        pageBeforeBack.data ++ (relIndexOf cur root).data ++ pageAfterBack.data ++
        (sectionsHtml docs).data ++ pageTail.data, ?_⟩
    simp only [generate_html, pagePrefix, String.data_append]
    rw [hu, hw]
    simp [List.append_assoc]
  · obtain ⟨u, hu⟩ : ∃ u, pageStyle.data = u ++ "<header>".data :=
      ⟨pageStyle.data.take (pageStyle.data.length - 8), by rfl⟩
    obtain ⟨w, hw⟩ : ∃ w, pageAfterHeader.data = "</header>".data ++ w :=
      ⟨pageAfterHeader.data.drop 9, by rfl⟩
    refine (containsSeg_iff _ _).mpr
      ⟨pageHead.data ++ filename.data ++ u, w ++ sidebar.data ++
        pageBeforeBack.data ++ (relIndexOf cur root).data ++ pageAfterBack.data ++
        (sectionsHtml docs).data ++ pageTail.data, ?_⟩
    simp only [generate_html, pagePrefix, String.data_append]
    rw [hu, hw]
    simp [List.append_assoc]

/-! ## C8: folder expansion in the sidebar -/

mutual
theorem hasCurV_imp (cur : List String) : ∀ v : DVal, hasCurV cur v = true → Contains cur v
  | .file p, h => by
    have hp : p = cur := by simpa [hasCurV] using h
    rw [hp]
    exact Contains.file
  | .dir es, h => hasCurE_imp cur es (by simpa [hasCurV] using h)

theorem hasCurE_imp (cur : List String) :
    ∀ es : DEntries, hasCurE cur es = true → Contains cur (DVal.dir es)
  | .cons k v t, h =>
    match hv : hasCurV cur v with
    | true => Contains.head k v t (hasCurV_imp cur v hv)
    | false => Contains.tail k v t (hasCurE_imp cur t (by simpa [hasCurE, hv] using h))
end

theorem contains_imp_hasCurV (cur : List String) (v : DVal) (h : Contains cur v) :
    hasCurV cur v = true := by
  induction h with
  | file => simp [hasCurV]
  | head k w t hc ih => simp [hasCurV, hasCurE, ih]
  | tail k w t hc ih =>
    simp only [hasCurV] at ih
    simp [hasCurV, hasCurE, ih]

/-- C8: in every rendered sidebar, a folder's collapsible element carries
the `open` attribute exactly when its subtree contains the file leaf
whose (resolved) output path equals the current page's (resolved) path:
`render_tree` emits `openAttrOf`, which is `" open"` iff the subtree
contains the current page. -/
theorem c8_open_iff_contains (cur : List String) (child : DEntries) :
    openAttrOf cur child = " open" ↔ Contains cur (DVal.dir child) := by
  unfold openAttrOf has_current
  constructor
  · intro h
    by_cases hc : hasCurE cur child = true
    · exact hasCurE_imp cur child hc
    · rw [if_neg (by simpa using hc)] at h
      exact absurd h (by decide)
  · intro h
    have hv := contains_imp_hasCurV cur _ h
    simp only [hasCurV] at hv
    simp [hv]

/-- Witness for C8: a one-entry dictionary holding the current page's
path renders open. -/
theorem c8_open_iff_contains_witness :
    openAttrOf ["out", "a.html"]
      (DEntries.cons "a.odin" (DVal.file ["out", "a.html"]) DEntries.nil) = " open" :=
  (c8_open_iff_contains _ _).mpr (Contains.head _ _ _ Contains.file)

/-! ## C4: one well-formed comment plus declaration gives one record -/

theorem space_not_word (c : Char) (h : isSpace c = true) : isWordChar c = false := by
  unfold isSpace at h
  unfold isWordChar
  simp only [Bool.or_eq_true, Bool.and_eq_true, decide_eq_true_eq] at h
  simp only [Bool.or_eq_false_iff, Bool.and_eq_false_iff, decide_eq_false_iff_not]
  omega

theorem dropWhile_append_all {p : Char → Bool} (l₁ l₂ : List Char)
    (h : ∀ c ∈ l₁, p c = true) : (l₁ ++ l₂).dropWhile p = l₂.dropWhile p := by
  induction l₁ with
  | nil => rfl
  | cons c t ih =>
    rw [List.cons_append, List.dropWhile_cons, if_pos (h c (by simp))]
    exact ih (fun x hx => h x (by simp [hx]))

theorem takeWhile_append_all {p : Char → Bool} (l₁ l₂ : List Char)
    (h : ∀ c ∈ l₁, p c = true) : (l₁ ++ l₂).takeWhile p = l₁ ++ l₂.takeWhile p := by
  induction l₁ with
  | nil => rfl
  | cons c t ih =>
    rw [List.cons_append, List.takeWhile_cons, if_pos (h c (by simp)), List.cons_append,
      ih (fun x hx => h x (by simp [hx]))]

theorem dropWhile_cons_neg {p : Char → Bool} (c : Char) (l : List Char) (h : p c = false) :
    (c :: l).dropWhile p = c :: l := by
  rw [List.dropWhile_cons, if_neg (by simp [h])]

theorem takeWhile_cons_neg {p : Char → Bool} (c : Char) (l : List Char) (h : p c = false) :
    (c :: l).takeWhile p = [] := by
  rw [List.takeWhile_cons, if_neg (by simp [h])]

theorem takeWhile_all {p : Char → Bool} (l : List Char) (h : ∀ c ∈ l, p c = true) :
    l.takeWhile p = l := by
  have h2 := takeWhile_append_all l [] h
  simpa using h2

theorem dropWhile_all {p : Char → Bool} (l : List Char) (h : ∀ c ∈ l, p c = true) :
    l.dropWhile p = [] := by
  have h2 := dropWhile_append_all l [] h
  simpa using h2

/-- Heads of whitespace-prefixed text: dropping spaces before `w ++ X`
reaches `X`'s (non-space) head. -/
theorem dropWhile_ws_then (w X : List Char) (hw : ∀ c ∈ w, isSpace c = true)
    (c : Char) (t : List Char) (hX : X = c :: t) (hc : isSpace c = false) :
    (w ++ X).dropWhile isSpace = X := by
  rw [dropWhile_append_all w X hw, hX, dropWhile_cons_neg c t hc]

/-- Taking word characters from whitespace-or-other-prefixed text yields
nothing: the head of `w ++ X` is a space (of `w`) or `X`'s non-word head. -/
theorem takeWhile_word_nil (w X : List Char) (hw : ∀ c ∈ w, isSpace c = true)
    (c : Char) (t : List Char) (hX : X = c :: t) (hc : isWordChar c = false) :
    (w ++ X).takeWhile isWordChar = [] := by
  cases w with
  | nil => simpa [hX] using takeWhile_cons_neg c t hc
  | cons a w' =>
    rw [List.cons_append, takeWhile_cons_neg a _ (space_not_word a (hw a (by simp)))]

/-- Dropping word characters from whitespace-or-other-prefixed text drops
nothing. -/
theorem dropWhile_word_id (w X : List Char) (hw : ∀ c ∈ w, isSpace c = true)
    (c : Char) (t : List Char) (hX : X = c :: t) (hc : isWordChar c = false) :
    (w ++ X).dropWhile isWordChar = w ++ X := by
  cases w with
  | nil => simpa [hX] using dropWhile_cons_neg c t hc
  | cons a w' =>
    rw [List.cons_append, dropWhile_cons_neg a _ (space_not_word a (hw a (by simp)))]

theorem word_not_space (c : Char) (h : isWordChar c = true) : isSpace c = false := by
  cases hsp : isSpace c
  · rfl
  · rw [space_not_word c hsp] at h
    cases h

theorem matchDecl_spec (w0 w1 w2 w3 name params arrowL : List Char)
    (hw0 : ∀ c ∈ w0, isSpace c = true) (hw1 : ∀ c ∈ w1, isSpace c = true)
    (hw2 : ∀ c ∈ w2, isSpace c = true) (hw3 : ∀ c ∈ w3, isSpace c = true)
    (hn : name ≠ []) (hnw : ∀ c ∈ name, isWordChar c = true)
    (hp : ∀ c ∈ params, ¬(c = ')'))
    (ha : arrowL = [] ∨ ∃ w5 w6 ty, (∀ c ∈ w5, isSpace c = true) ∧ (∀ c ∈ w6, isSpace c = true) ∧
      ty ≠ [] ∧ (∀ c ∈ ty, isWordChar c = true) ∧ arrowL = w5 ++ ('-' :: '>' :: (w6 ++ ty))) :
    matchDecl (w0 ++ (name ++ (w1 ++ (':' :: ':' :: (w2 ++ ('p' :: 'r' :: 'o' :: 'c' ::
        (w3 ++ ('(' :: (params ++ (')' :: arrowL)))))))))) =
      some (name, ('(' :: (params ++ [')'])) ++ arrowL, []) := by
  obtain ⟨nc, nt, rfl⟩ := List.exists_cons_of_ne_nil hn
  have hncw : isWordChar nc = true := hnw nc (by simp)
  have hncs : isSpace nc = false := word_not_space nc hncw
  have e1 : List.dropWhile isSpace (w0 ++ ((nc :: nt) ++ (w1 ++ (':' :: ':' :: (w2 ++
      ('p' :: 'r' :: 'o' :: 'c' :: (w3 ++ ('(' :: (params ++ (')' :: arrowL)))))))))) =
      (nc :: nt) ++ (w1 ++ (':' :: ':' :: (w2 ++
      ('p' :: 'r' :: 'o' :: 'c' :: (w3 ++ ('(' :: (params ++ (')' :: arrowL)))))))) := by
    rw [dropWhile_append_all w0 _ hw0]
    exact dropWhile_cons_neg nc _ hncs
  have e2 : List.takeWhile isWordChar ((nc :: nt) ++ (w1 ++ (':' :: ':' :: (w2 ++
      ('p' :: 'r' :: 'o' :: 'c' :: (w3 ++ ('(' :: (params ++ (')' :: arrowL))))))))) =
      nc :: nt := by
    rw [takeWhile_append_all _ _ hnw, takeWhile_word_nil w1 _ hw1 ':' _ rfl (by decide)]
    simp
  have e3 : List.dropWhile isWordChar ((nc :: nt) ++ (w1 ++ (':' :: ':' :: (w2 ++
      ('p' :: 'r' :: 'o' :: 'c' :: (w3 ++ ('(' :: (params ++ (')' :: arrowL))))))))) =
      w1 ++ (':' :: ':' :: (w2 ++
      ('p' :: 'r' :: 'o' :: 'c' :: (w3 ++ ('(' :: (params ++ (')' :: arrowL))))))) := by
    rw [dropWhile_append_all _ _ hnw]
    exact dropWhile_word_id w1 _ hw1 ':' _ rfl (by decide)
  have e4 : List.dropWhile isSpace (w1 ++ (':' :: ':' :: (w2 ++
      ('p' :: 'r' :: 'o' :: 'c' :: (w3 ++ ('(' :: (params ++ (')' :: arrowL)))))))) =
      ':' :: ':' :: (w2 ++ ('p' :: 'r' :: 'o' :: 'c' :: (w3 ++ ('(' :: (params ++ (')' :: arrowL)))))) :=
    dropWhile_ws_then w1 _ hw1 ':' _ rfl (by decide)
  have e5 : List.dropWhile isSpace (w2 ++ ('p' :: 'r' :: 'o' :: 'c' :: (w3 ++ ('(' :: (params ++ (')' :: arrowL)))))) =
      'p' :: 'r' :: 'o' :: 'c' :: (w3 ++ ('(' :: (params ++ (')' :: arrowL)))) :=
    dropWhile_ws_then w2 _ hw2 'p' _ rfl (by decide)
  have e6 : List.dropWhile isSpace (w3 ++ ('(' :: (params ++ (')' :: arrowL)))) =
      '(' :: (params ++ (')' :: arrowL)) :=
    dropWhile_ws_then w3 _ hw3 '(' _ rfl (by decide)
  have hpn : ∀ c ∈ params, (decide ¬(c = ')')) = true := fun c hc => by simp [hp c hc]
  have e7 : List.takeWhile (fun c => decide ¬(c = ')')) (params ++ (')' :: arrowL)) = params := by
    rw [takeWhile_append_all _ _ hpn, takeWhile_cons_neg ')' _ (by decide)]
    simp
  have e8 : List.dropWhile (fun c => decide ¬(c = ')')) (params ++ (')' :: arrowL)) =
      ')' :: arrowL := by
    rw [dropWhile_append_all _ _ hpn]
    exact dropWhile_cons_neg ')' _ (by decide)
  rcases ha with rfl | ⟨w5, w6, ty, hw5, hw6, hty, htyw, rfl⟩
  · simp only [matchDecl, e1, e2, e3, e4, e5, e6, e7, e8]
    simp
  · obtain ⟨tc, tt, rfl⟩ := List.exists_cons_of_ne_nil hty
    have htcw : isWordChar tc = true := htyw tc (by simp)
    have e9 : List.takeWhile isSpace (w5 ++ ('-' :: '>' :: (w6 ++ tc :: tt))) = w5 := by
      rw [takeWhile_append_all _ _ hw5, takeWhile_cons_neg '-' _ (by decide)]
      simp
    have e10 : List.dropWhile isSpace (w5 ++ ('-' :: '>' :: (w6 ++ tc :: tt))) =
        '-' :: '>' :: (w6 ++ tc :: tt) :=
      dropWhile_ws_then w5 _ hw5 '-' _ rfl (by decide)
    have e11 : List.takeWhile isSpace (w6 ++ tc :: tt) = w6 := by
      rw [takeWhile_append_all _ _ hw6, takeWhile_cons_neg tc _ (word_not_space tc htcw)]
      simp
    have e12 : List.dropWhile isSpace (w6 ++ tc :: tt) = tc :: tt :=
      dropWhile_ws_then w6 _ hw6 tc _ rfl (word_not_space tc htcw)
    have e13 : List.takeWhile isWordChar (tc :: tt) = tc :: tt := takeWhile_all _ htyw
    have e14 : List.dropWhile isWordChar (tc :: tt) = [] := dropWhile_all _ htyw
    simp only [matchDecl, e1, e2, e3, e4, e5, e6, e7, e8, e9, e10, e11, e12, e13, e14]
    simp

theorem tryMatch_spec (bodyL : List Char) : ∀ (acc rest n s r : List Char),
    hasClose bodyL = false → matchDecl rest = some (n, s, r) →
    tryMatch acc (bodyL ++ '*' :: '/' :: rest) = some (acc ++ bodyL, n, s, r) := by
  induction bodyL with
  | nil =>
    intro acc rest n s r _ hm
    simp [tryMatch, hm]
  | cons c bod ih =>
    intro acc rest n s r hb hm
    cases bod with
    | nil =>
      have h1 : ((c = '*' : Bool) && (('*' : Char) = '/' : Bool)) = false := by
        simp
      rw [show ([c] ++ '*' :: '/' :: rest) = c :: '*' :: '/' :: rest from rfl]
      rw [tryMatch, if_neg (by simp [h1])]
      simp [tryMatch, hm]
    | cons d bod' =>
      have hsplit : ((c = '*' : Bool) && (d = '/' : Bool)) = false ∧ hasClose (d :: bod') = false := by
        have := hb
        rw [show hasClose (c :: d :: bod') = (((c = '*' : Bool) && (d = '/' : Bool)) || hasClose (d :: bod')) from rfl] at this
        exact Bool.or_eq_false_iff.mp this
      rw [show ((c :: d :: bod') ++ '*' :: '/' :: rest) = c :: ((d :: bod') ++ '*' :: '/' :: rest) from rfl]
      rw [show ((d :: bod') ++ '*' :: '/' :: rest) = d :: (bod' ++ '*' :: '/' :: rest) from rfl]
      rw [tryMatch, if_neg (by simp [hsplit.1])]
      have := ih (acc ++ [c]) rest n s r hsplit.2 hm
      rw [show (d :: (bod' ++ '*' :: '/' :: rest)) = ((d :: bod') ++ '*' :: '/' :: rest) from rfl, this]
      simp

theorem scanF_single (bodyL decl n s : List Char) (fuel : Nat)
    (hb : hasClose bodyL = false) (hm : matchDecl decl = some (n, s, [])) :
    scanF (fuel + 2) ('/' :: '*' :: (bodyL ++ '*' :: '/' :: decl)) = [(bodyL, n, s)] := by
  rw [scanF]
  rw [show tryMatch [] (bodyL ++ '*' :: '/' :: decl) = some ([] ++ bodyL, n, s, []) from
    tryMatch_spec bodyL [] decl n s [] hb hm]
  simp [scanF]

theorem mk_data (s : String) : String.mk s.data = s := rfl

theorem reverse_head_mem (l : List Char) (h : l ≠ []) : ∃ c t, l.reverse = c :: t ∧ c ∈ l := by
  have hne : l.reverse ≠ [] := by simpa using h
  obtain ⟨c, t, hct⟩ := List.exists_cons_of_ne_nil hne
  refine ⟨c, t, hct, ?_⟩
  have hm : c ∈ l.reverse := by rw [hct]; simp
  simpa using hm

theorem pyStrip_noop (l : List Char) (h1 : l.dropWhile isSpace = l)
    (h2 : l.reverse.dropWhile isSpace = l.reverse) : pyStrip l = l := by
  unfold pyStrip
  rw [h1, h2, List.reverse_reverse]

/-- C4: an input consisting of a well-formed block comment (its body free
of `*/`) immediately followed by `name :: proc(params)` — with arbitrary
whitespace at the `\s*` positions and an optional `-> type` — yields
exactly one `DocRecord`, whose signature is the captured parameter-list
text verbatim, the optional trailing `-> type` (with its inner spacing)
included. -/
theorem c4_single_record (body w0 name w1 w2 w3 params arrow : String)
    (hb : hasClose body.data = false)
    (hw0 : ∀ c ∈ w0.data, isSpace c = true) (hw1 : ∀ c ∈ w1.data, isSpace c = true)
    (hw2 : ∀ c ∈ w2.data, isSpace c = true) (hw3 : ∀ c ∈ w3.data, isSpace c = true)
    (hn : name.data ≠ []) (hnw : ∀ c ∈ name.data, isWordChar c = true)
    (hp : ∀ c ∈ params.data, ¬(c = ')'))
    (ha : arrow.data = [] ∨ ∃ w5 w6 ty, (∀ c ∈ w5, isSpace c = true) ∧
      (∀ c ∈ w6, isSpace c = true) ∧ ty ≠ [] ∧ (∀ c ∈ ty, isWordChar c = true) ∧
      arrow.data = w5 ++ ('-' :: '>' :: (w6 ++ ty))) :
    (extract_docs ("/*" ++ body ++ "*/" ++ w0 ++ name ++ w1 ++ "::" ++ w2 ++ "proc" ++
        w3 ++ "(" ++ params ++ ")" ++ arrow)).map DocRecord.signature =
      ["(" ++ params ++ ")" ++ arrow] := by
  have hdecl : matchDecl (w0.data ++ (name.data ++ (w1.data ++ (':' :: ':' :: (w2.data ++
      ('p' :: 'r' :: 'o' :: 'c' :: (w3.data ++ ('(' :: (params.data ++ (')' :: arrow.data)))))))))) =
      some (name.data, ('(' :: (params.data ++ [')'])) ++ arrow.data, []) :=
    matchDecl_spec w0.data w1.data w2.data w3.data name.data params.data arrow.data
      hw0 hw1 hw2 hw3 hn hnw hp ha
  have hdata : ("/*" ++ body ++ "*/" ++ w0 ++ name ++ w1 ++ "::" ++ w2 ++ "proc" ++
      w3 ++ "(" ++ params ++ ")" ++ arrow).data =
      '/' :: '*' :: (body.data ++ '*' :: '/' :: (w0.data ++ (name.data ++ (w1.data ++
      (':' :: ':' :: (w2.data ++ ('p' :: 'r' :: 'o' :: 'c' :: (w3.data ++
      ('(' :: (params.data ++ (')' :: arrow.data))))))))))) := by
    simp [String.data_append, List.append_assoc]
  unfold extract_docs
  rw [hdata]
  have hlen : ∀ T : List Char, ('/' :: '*' :: T).length + 1 = (T.length + 1) + 2 := by
    intro T
    simp
  rw [hlen]
  rw [scanF_single _ _ _ _ _ hb hdecl]
  simp only [List.map_map, List.map_singleton, Function.comp_apply]
  have hsig : (mkDocRecord body.data name.data
      (('(' :: (params.data ++ [')'])) ++ arrow.data)).signature =
      "(" ++ params ++ ")" ++ arrow := by
    unfold mkDocRecord
    have hstrip : pyStrip (('(' :: (params.data ++ [')'])) ++ arrow.data) =
        ('(' :: (params.data ++ [')'])) ++ arrow.data := by
      apply pyStrip_noop
      · rw [show (('(' :: (params.data ++ [')'])) ++ arrow.data) =
          '(' :: ((params.data ++ [')']) ++ arrow.data) from rfl]
        exact dropWhile_cons_neg '(' _ (by decide)
      · rcases ha with hnil | ⟨w5, w6, ty, hw5, hw6, hty, htyw, heq⟩
        · rw [hnil]
          have hrev : (('(' :: (params.data ++ [')'])) ++ ([] : List Char)).reverse =
              ')' :: (params.data.reverse ++ ['(']) := by
            simp
          rw [hrev]
          exact dropWhile_cons_neg ')' _ (by decide)
        · obtain ⟨c, t', hct, hcmem⟩ := reverse_head_mem ty hty
          have hcw : isSpace c = false := word_not_space c (htyw c hcmem)
          have hrev : (('(' :: (params.data ++ [')'])) ++ arrow.data).reverse =
              c :: (t' ++ (w6.reverse ++ ('>' :: '-' :: (w5.reverse ++
                ((')' :: params.data.reverse) ++ ['(']))))) := by
            rw [heq]
            simp [List.reverse_append, hct]
          rw [hrev]
          exact dropWhile_cons_neg c _ hcw
    show String.mk (pyStrip (('(' :: (params.data ++ [')'])) ++ arrow.data)) = _
    rw [hstrip]
    have : ("(" ++ params ++ ")" ++ arrow).data =
        ('(' :: (params.data ++ [')'])) ++ arrow.data := by
      simp [String.data_append]
    rw [← this, mk_data]
  rw [hsig]

/-- Witness for C4 at a concrete documented declaration with an arrow
return annotation and non-trivial spacing. -/
theorem c4_single_record_witness :
    (extract_docs ("/*" ++ "* a doc" ++ "*/" ++ "\n" ++ "add" ++ " " ++ "::" ++ " " ++
        "proc" ++ "" ++ "(" ++ "a, b: int" ++ ")" ++ " -> int")).map DocRecord.signature =
      ["(" ++ "a, b: int" ++ ")" ++ " -> int"] :=
  c4_single_record "* a doc" "\n" "add" " " " " "" "a, b: int" " -> int"
    (by decide) (by decide) (by decide) (by decide) (by decide) (by decide) (by decide)
    (by decide)
    (Or.inr ⟨[' '], [' '], ['i', 'n', 't'], by decide, by decide, by decide, by decide, by decide⟩)

/-! ## C2: a read error is not caught -/

theorem processFiles_append (out : List String) (l₁ l₂ : List SrcFile) : ∀ st : GenState,
    processFiles out st (l₁ ++ l₂) =
      match processFiles out st l₁ with
      | (st', none) => processFiles out st' l₂
      | (st', some e) => (st', some e) := by
  induction l₁ with
  | nil => intro st; rfl
  | cons f t ih =>
    intro st
    rw [List.cons_append, processFiles, processFiles]
    cases processFile out st f with
    | ok st' => exact ih st'
    | error e => rfl

/-- C2 counterexample: on the concrete run `[exFileBad, exFileB]` (an
unreadable `.odin` file followed by a documented one) the generator
aborts with the read error, writes nothing — the documented `exFileB`
that follows produces no page and no index is written — although
`exFileB` alone yields a page and the index.  The error is not caught and
processing does not continue. -/
theorem c2_counterexample :
    (generate_docs_for_dir ["out"] [exFileBad, exFileB]).2 = some RunError.unreadable ∧
    (generate_docs_for_dir ["out"] [exFileBad, exFileB]).1 = [] ∧
    (generate_docs_for_dir ["out"] [exFileB]).2 = none ∧
    (generate_docs_for_dir ["out"] [exFileB]).1.length = 2 := by
  decide

/-- C2 (amended): a decode/IO error while reading a candidate `.odin`
file is not caught: the run aborts at that file with the exception, the
pages already written for earlier files remain, and no page is produced
for the failing file, for any later file, or for the index. -/
theorem c2_read_error_aborts (out_dir : List String) (pre post : List SrcFile) (f : SrcFile)
    (hodin : endsOdin f.fname = true) (hbad : f.content = none)
    (hpre : (processFiles out_dir ⟨DEntries.nil, []⟩ pre).2 = none) :
    generate_docs_for_dir out_dir (pre ++ f :: post) =
      ((processFiles out_dir ⟨DEntries.nil, []⟩ pre).1.outputs, some RunError.unreadable) := by
  rcases hrr : processFiles out_dir ⟨DEntries.nil, []⟩ pre with ⟨st', e⟩
  rw [hrr] at hpre
  simp only at hpre
  subst hpre
  have hf : processFile out_dir st' f = .error .unreadable := by
    unfold processFile
    rw [if_pos hodin, hbad]
  unfold generate_docs_for_dir
  rw [processFiles_append, hrr]
  simp only [processFiles, hf]

/-- Witness for C2 (amended) at a concrete run: a documented file, then
the unreadable file, then another documented file. -/
theorem c2_read_error_aborts_witness :
    generate_docs_for_dir ["out"] ([exFileA] ++ exFileBad :: [exFileB]) =
      ((processFiles ["out"] ⟨DEntries.nil, []⟩ [exFileA]).1.outputs, some RunError.unreadable) :=
  c2_read_error_aborts ["out"] [exFileA] [exFileB] exFileBad (by decide) (by decide) (by decide)

theorem processFile_ok_processed (out : List String) (st : GenState) (f : SrcFile)
    (code : String) (hc : f.content = some code) (hodin : endsOdin f.fname = true)
    (hdocs : ¬(extract_docs code = [])) (hins : insertOk st.tree f.dirParts = true) :
    processFile out st f = .ok ⟨insertFile out st.tree f,
      st.outputs ++ [(outPathOf out f, pageBytes out (insertFile out st.tree f) f)]⟩ := by
  unfold processFile
  rw [if_pos hodin, hc]
  simp only [if_neg hdocs, if_pos hins]
  unfold insertFile outPathOf pageBytes
  rw [hc]
  rfl

theorem processFile_ok_skip (out : List String) (st : GenState) (f : SrcFile)
    (h : isProcessed f = false) (hread : endsOdin f.fname = true → f.content ≠ none) :
    processFile out st f = .ok st := by
  unfold processFile
  by_cases hodin : endsOdin f.fname = true
  · rw [if_pos hodin]
    cases hc : f.content with
    | none => exact absurd hc (hread hodin)
    | some code =>
      have hde : extract_docs code = [] := by
        unfold isProcessed at h
        rw [hc, hodin] at h
        simpa using h
      simp [hde]
  · rw [if_neg hodin]

theorem processFiles_success_char (out : List String) (files : List SrcFile) : ∀ st : GenState,
    (processFiles out st files).2 = none →
    processFiles out st files =
      (⟨(files.filter isProcessed).foldl (insertFile out) st.tree,
        st.outputs ++ pagesList out st.tree (files.filter isProcessed)⟩, none) := by
  induction files with
  | nil =>
    intro st _
    simp [processFiles, pagesList]
  | cons f fs ih =>
    intro st hok
    rw [processFiles] at hok ⊢
    cases hpf : processFile out st f with
    | error e =>
      rw [hpf] at hok
      simp at hok
    | ok st' =>
      rw [hpf] at hok
      simp only at hok ⊢
      by_cases hp : isProcessed f = true
      · -- f is documented: decompose processFile
        have hp2 : endsOdin f.fname = true ∧
            (match f.content with
             | none => false
             | some code => !(extract_docs code).isEmpty) = true := by
          unfold isProcessed at hp
          simp only [Bool.and_eq_true] at hp
          exact hp
        have hodin : endsOdin f.fname = true := hp2.1
        obtain ⟨code, hc⟩ : ∃ code, f.content = some code := by
          cases hcc : f.content with
          | none => rw [hcc] at hp2; simp at hp2
          | some code => exact ⟨code, rfl⟩
        have hdocs : ¬(extract_docs code = []) := by
          have h2 := hp2.2
          rw [hc] at h2
          simpa using h2
        have hins : insertOk st.tree f.dirParts = true := by
          by_contra hni
          rw [Bool.not_eq_true] at hni
          unfold processFile at hpf
          rw [if_pos hodin, hc] at hpf
          simp only [if_neg hdocs, hni] at hpf
          simp at hpf
        have hchar := processFile_ok_processed out st f code hc hodin hdocs hins
        have hst' := Except.ok.inj (hpf.symm.trans hchar)
        subst hst'
        rw [ih _ hok]
        rw [List.filter_cons_of_pos hp]
        rw [List.foldl_cons]
        rw [show pagesList out st.tree (f :: List.filter isProcessed fs) =
          (outPathOf out f, pageBytes out (insertFile out st.tree f) f) ::
            pagesList out (insertFile out st.tree f) (List.filter isProcessed fs) from rfl]
        simp
      · -- f is skipped (it cannot be unreadable, else processFile errors)
        have hread : endsOdin f.fname = true → f.content ≠ none := by
          intro hodin hnone
          unfold processFile at hpf
          rw [if_pos hodin, hnone] at hpf
          cases hpf
        have hskip := processFile_ok_skip out st f (by simpa using hp) hread
        have hst' := Except.ok.inj (hpf.symm.trans hskip)
        subst hst'
        rw [ih _ hok]
        rw [List.filter_cons_of_neg (by simpa using hp)]

theorem pagesList_length (out : List String) (pf : List SrcFile) : ∀ t : DEntries,
    (pagesList out t pf).length = pf.length := by
  induction pf with
  | nil => intro t; rfl
  | cons f fs ih =>
    intro t
    rw [pagesList]
    simp [ih]

theorem pagesList_get? (out : List String) (pf : List SrcFile) : ∀ (pre : List SrcFile) (k : Nat),
    (pagesList out (pre.foldl (insertFile out) DEntries.nil) pf).get? k =
      (pf.get? k).map (fun f =>
        (outPathOf out f,
         pageBytes out ((pre ++ pf.take (k + 1)).foldl (insertFile out) DEntries.nil) f)) := by
  induction pf with
  | nil => intro pre k; simp [pagesList]
  | cons f fs ih =>
    intro pre k
    rw [pagesList]
    cases k with
    | zero =>
      have hfold : insertFile out (pre.foldl (insertFile out) DEntries.nil) f =
          (pre ++ (f :: fs).take (0 + 1)).foldl (insertFile out) DEntries.nil := by
        rw [show (f :: fs).take (0 + 1) = [f] from rfl, List.foldl_append]
        rfl
      simp only [List.get?_cons_zero, Option.map_some]
      rw [hfold]
      rfl
    | succ k' =>
      have hpre : insertFile out (pre.foldl (insertFile out) DEntries.nil) f =
          (pre ++ [f]).foldl (insertFile out) DEntries.nil := by
        rw [List.foldl_append]
        rfl
      rw [show ((outPathOf out f,
            pageBytes out (insertFile out (pre.foldl (insertFile out) DEntries.nil) f) f) ::
          pagesList out (insertFile out (pre.foldl (insertFile out) DEntries.nil) f) fs).get?
            (k' + 1) =
          (pagesList out (insertFile out (pre.foldl (insertFile out) DEntries.nil) f) fs).get? k'
        from rfl]
      rw [hpre, ih (pre ++ [f]) k']
      rw [show (f :: fs).get? (k' + 1) = fs.get? k' from rfl]
      rw [show (f :: fs).take (k' + 1 + 1) = f :: fs.take (k' + 1) from rfl]
      rw [show pre ++ f :: fs.take (k' + 1) = (pre ++ [f]) ++ fs.take (k' + 1) from by simp]

/-- C1 (amended): in a completed run, the sidebar rendered into the k-th
generated page reflects exactly the documented files among the first k+1
processed files — the tree `treeAfter (k+1)`, built from `take (k+1)` of
the documented files only — not the complete site; only the final
`index.html` page's sidebar is rendered from the full tree. -/
theorem c1_sidebar_incremental (out_dir : List String) (files : List SrcFile)
    (hok : (generate_docs_for_dir out_dir files).2 = none) :
    (∀ (k : Nat) (f : SrcFile), (files.filter isProcessed).get? k = some f →
      (generate_docs_for_dir out_dir files).1.get? k =
        some (outPathOf out_dir f, pageBytes out_dir (treeAfter out_dir files (k + 1)) f)) ∧
    (generate_docs_for_dir out_dir files).1.get? (files.filter isProcessed).length =
      some (out_dir ++ ["index.html"],
        indexBytes out_dir (treeAfter out_dir files (files.filter isProcessed).length)) := by
  have hp2 : (processFiles out_dir ⟨DEntries.nil, []⟩ files).2 = none := by
    by_contra hne
    rcases hrr : processFiles out_dir ⟨DEntries.nil, []⟩ files with ⟨st', e⟩
    rw [hrr] at hne
    cases e with
    | none => exact hne rfl
    | some err =>
      unfold generate_docs_for_dir at hok
      rw [hrr] at hok
      simp at hok
  have hchar := processFiles_success_char out_dir files _ hp2
  have hout : (generate_docs_for_dir out_dir files).1 =
      pagesList out_dir DEntries.nil (files.filter isProcessed) ++
        [(out_dir ++ ["index.html"],
          indexBytes out_dir ((files.filter isProcessed).foldl (insertFile out_dir) DEntries.nil))] := by
    unfold generate_docs_for_dir
    rw [hchar]
    simp [indexBytes]
  constructor
  · intro k f hkf
    have hklt : k < (files.filter isProcessed).length := by
      by_contra hge
      rw [List.get?_eq_none.mpr (by omega)] at hkf
      cases hkf
    rw [hout, List.get?_append (by rw [pagesList_length]; exact hklt)]
    have hget := pagesList_get? out_dir (files.filter isProcessed) [] k
    rw [show ([] : List SrcFile).foldl (insertFile out_dir) DEntries.nil = DEntries.nil from rfl]
      at hget
    rw [hget, hkf]
    rw [show [] ++ (files.filter isProcessed).take (k + 1) =
      (files.filter isProcessed).take (k + 1) from by simp]
    rfl
  · rw [hout]
    rw [List.get?_append_right (by rw [pagesList_length])]
    rw [pagesList_length]
    simp only [Nat.sub_self, List.get?_cons_zero]
    unfold treeAfter
    rw [List.take_length]

set_option maxRecDepth 1000000 in
/-- C1 counterexample: the run `[exFileA, exFileB]` completes and
documents both files (it writes `a.html`, `b.html` and the index), yet
the page written for `a.odin` — rendered before `b.odin` was discovered —
mentions neither `b.html` nor `b.odin` anywhere: its sidebar does not
list every documented file of the run. -/
theorem c1_counterexample :
    (generate_docs_for_dir ["out"] [exFileA, exFileB]).2 = none ∧
    (generate_docs_for_dir ["out"] [exFileA, exFileB]).1.map Prod.fst =
      [["out", "a.html"], ["out", "b.html"], ["out", "index.html"]] ∧
    (∀ pc ∈ (generate_docs_for_dir ["out"] [exFileA, exFileB]).1,
      pc.1 = ["out", "a.html"] →
        containsSeg "b.html".data pc.2.data = false ∧
        containsSeg "b.odin".data pc.2.data = false) := by
  decide

set_option maxRecDepth 1000000 in
/-- Witness for C1 (amended) at a concrete two-file run: the first page's
bytes are rendered from the tree of the first documented file only. -/
theorem c1_sidebar_incremental_witness :
    (generate_docs_for_dir ["out"] [exFileA, exFileB]).1.get? 0 =
      some (outPathOf ["out"] exFileA,
        pageBytes ["out"] (treeAfter ["out"] [exFileA, exFileB] 1) exFileA) :=
  (c1_sidebar_incremental ["out"] [exFileA, exFileB] (by decide)).1 0 exFileA (by decide)

/-! ## C9: the output bytes do not depend on the output root -/

theorem dropCommon_cancel (r : List String) : ∀ a b : List String,
    dropCommon (r ++ a) (r ++ b) = dropCommon a b := by
  induction r with
  | nil => intro a b; rfl
  | cons x t ih =>
    intro a b
    rw [List.cons_append, List.cons_append, dropCommon, if_pos rfl]
    exact ih a b

theorem relpath_cancel (r a b : List String) : relpath (r ++ a) (r ++ b) = relpath a b := by
  unfold relpath
  rw [dropCommon_cancel]

mutual
theorem sizeV_addRoot (r : List String) : ∀ v : DVal, sizeV (addRootV r v) = sizeV v
  | .file _ => rfl
  | .dir es => by rw [addRootV, sizeV, sizeV, sizeE_addRoot r es]
theorem sizeE_addRoot (r : List String) : ∀ t : DEntries, sizeE (addRootE r t) = sizeE t
  | .nil => rfl
  | .cons k v t => by rw [addRootE, sizeE, sizeE, sizeV_addRoot r v, sizeE_addRoot r t]
end

theorem lookupKey_addRoot (r : List String) (key : String) : ∀ t : DEntries,
    lookupKey (addRootE r t) key = (lookupKey t key).map (addRootV r)
  | .nil => rfl
  | .cons k v t => by
    rw [addRootE, lookupKey, lookupKey]
    by_cases hk : k = key
    · rw [if_pos hk, if_pos hk]
      rfl
    · rw [if_neg hk, if_neg hk, lookupKey_addRoot r key t]

theorem setEntry_addRoot (r : List String) (key : String) (v : DVal) : ∀ t : DEntries,
    setEntry (addRootE r t) key (addRootV r v) = addRootE r (setEntry t key v)
  | .nil => rfl
  | .cons k w t => by
    rw [addRootE, setEntry, setEntry]
    by_cases hk : k = key
    · rw [if_pos hk, if_pos hk]
      rfl
    · rw [if_neg hk, if_neg hk, addRootE, setEntry_addRoot r key v t]

theorem insertOk_addRoot (r : List String) : ∀ (parts : List String) (t : DEntries),
    insertOk (addRootE r t) parts = insertOk t parts := by
  intro parts
  induction parts with
  | nil => intro t; rfl
  | cons p rest ih =>
    intro t
    rw [insertOk, insertOk]
    cases hl : lookupKey t p with
    | none =>
      rw [show lookupKey (addRootE r t) p = none from by rw [lookupKey_addRoot, hl]; rfl]
    | some v =>
      cases v with
      | file q =>
        rw [show lookupKey (addRootE r t) p = some (DVal.file (r ++ q)) from by
          rw [lookupKey_addRoot, hl]; rfl]
      | dir sub =>
        rw [show lookupKey (addRootE r t) p = some (DVal.dir (addRootE r sub)) from by
          rw [lookupKey_addRoot, hl]; rfl]
        exact ih sub

theorem insertTree_addRoot (r : List String) (fname : String) (path : List String) :
    ∀ (parts : List String) (t : DEntries),
    insertTree (addRootE r t) parts fname (r ++ path) =
      addRootE r (insertTree t parts fname path) := by
  intro parts
  induction parts with
  | nil =>
    intro t
    rw [insertTree, insertTree]
    exact setEntry_addRoot r fname (.file path) t
  | cons p rest ih =>
    intro t
    rw [insertTree, insertTree]
    cases hl : lookupKey t p with
    | none =>
      rw [show lookupKey (addRootE r t) p = none from by rw [lookupKey_addRoot, hl]; rfl]
      show setEntry (addRootE r t) p (DVal.dir (insertTree DEntries.nil rest fname (r ++ path))) =
        addRootE r (setEntry t p (DVal.dir (insertTree DEntries.nil rest fname path)))
      rw [show insertTree DEntries.nil rest fname (r ++ path) =
        addRootE r (insertTree DEntries.nil rest fname path) from ih DEntries.nil]
      exact setEntry_addRoot r p (.dir (insertTree DEntries.nil rest fname path)) t
    | some v =>
      cases v with
      | file q =>
        rw [show lookupKey (addRootE r t) p = some (DVal.file (r ++ q)) from by
          rw [lookupKey_addRoot, hl]; rfl]
      | dir sub =>
        rw [show lookupKey (addRootE r t) p = some (DVal.dir (addRootE r sub)) from by
          rw [lookupKey_addRoot, hl]; rfl]
        show setEntry (addRootE r t) p (DVal.dir (insertTree (addRootE r sub) rest fname (r ++ path))) =
          addRootE r (setEntry t p (DVal.dir (insertTree sub rest fname path)))
        rw [ih sub]
        exact setEntry_addRoot r p (.dir (insertTree sub rest fname path)) t

theorem insSorted_addRoot (r : List String) (k : String) (v : DVal) : ∀ t : DEntries,
    insSorted k (addRootV r v) (addRootE r t) = addRootE r (insSorted k v t)
  | .nil => rfl
  | .cons k' v' t => by
    rw [addRootE, insSorted, insSorted]
    by_cases hk : strLt k.data k'.data = true
    · rw [if_pos hk, if_pos hk]
      rfl
    · rw [if_neg hk, if_neg hk, addRootE, insSorted_addRoot r k v t]

theorem sortE_addRoot (r : List String) : ∀ t : DEntries,
    sortE (addRootE r t) = addRootE r (sortE t)
  | .nil => rfl
  | .cons k v t => by
    rw [addRootE, sortE, sortE, sortE_addRoot r t]
    exact insSorted_addRoot r k v (sortE t)

mutual
theorem hasCurV_addRoot (r cur : List String) : ∀ v : DVal,
    hasCurV (r ++ cur) (addRootV r v) = hasCurV cur v
  | .file p => by
    rw [addRootV, hasCurV, hasCurV]
    by_cases hp : p = cur
    · simp [hp]
    · simp [hp, fun h => hp (List.append_cancel_left h)]
  | .dir es => by
    rw [addRootV, hasCurV, hasCurV]
    exact hasCurE_addRoot r cur es
theorem hasCurE_addRoot (r cur : List String) : ∀ t : DEntries,
    hasCurE (r ++ cur) (addRootE r t) = hasCurE cur t
  | .nil => rfl
  | .cons k v t => by
    rw [addRootE, hasCurE, hasCurE, hasCurV_addRoot r cur v, hasCurE_addRoot r cur t]
end

theorem openAttrOf_addRoot (r cur : List String) (t : DEntries) :
    openAttrOf (r ++ cur) (addRootE r t) = openAttrOf cur t := by
  unfold openAttrOf has_current
  rw [hasCurE_addRoot]

theorem dropLast_append_ne (r c : List String) (h : c ≠ []) :
    (r ++ c).dropLast = r ++ c.dropLast := by
  induction r with
  | nil => rfl
  | cons x rs ih =>
    have hne : rs ++ c ≠ [] := by
      cases c with
      | nil => exact absurd rfl h
      | cons y t => simp
    rw [List.cons_append, List.dropLast_cons_of_ne_nil hne, ih, List.cons_append]

theorem renderF_addRoot (r cur : List String) (hc : cur ≠ []) :
    ∀ (fuel depth : Nat) (t : DEntries),
    renderF (r ++ cur) fuel depth (addRootE r t) = renderF cur fuel depth t := by
  intro fuel
  induction fuel with
  | zero => intro depth t; rfl
  | succ n ih =>
    
    intro depth t
    cases t with
    | nil => rfl
    | cons k v t =>
      cases v with
      | dir sub =>
        simp only [addRootE, addRootV, renderF]
        rw [openAttrOf_addRoot, sortE_addRoot, ih (depth + 1) (sortE sub), ih depth t]
      | file p =>
        simp only [addRootE, addRootV, renderF]
        rw [ih depth t, dropLast_append_ne r cur hc, relpath_cancel]
        by_cases hp : p = cur
        · rw [hp, if_pos rfl, if_pos rfl]
        · rw [if_neg hp, if_neg (fun h => hp (List.append_cancel_left h))]

theorem render_tree_addRoot (r cur : List String) (hc : cur ≠ []) (d : DEntries) :
    render_tree (addRootE r d) (r ++ cur) = render_tree d cur := by
  unfold render_tree
  rw [sizeE_addRoot, sortE_addRoot, renderF_addRoot r cur hc]

theorem relIndexOf_root (r cur : List String) (hc : cur ≠ []) :
    relIndexOf (some (r ++ cur)) (some r) = relIndexOf (some cur) (some []) := by
  show relpath (r ++ ["index.html"]) (r ++ cur).dropLast =
    relpath ([] ++ ["index.html"]) cur.dropLast
  rw [dropLast_append_ne r cur hc, List.nil_append,
    ← relpath_cancel r ["index.html"] cur.dropLast]

theorem generate_html_root (docs : List DocRecord) (fname sidebar : String)
    (r cur : List String) (hc : cur ≠ []) :
    generate_html docs fname sidebar (some (r ++ cur)) (some r) =
      generate_html docs fname sidebar (some cur) (some []) := by
  unfold generate_html pagePrefix
  rw [relIndexOf_root r cur hc]

theorem outPathOf_root (r : List String) (f : SrcFile) :
    outPathOf r f = r ++ outPathOf [] f := by
  unfold outPathOf
  rw [List.nil_append, List.append_assoc]

theorem outPathOf_nil_ne (f : SrcFile) : outPathOf [] f ≠ [] := by
  unfold outPathOf
  simp

theorem insertFile_root (r : List String) (t : DEntries) (f : SrcFile) :
    insertFile r (addRootE r t) f = addRootE r (insertFile [] t f) := by
  unfold insertFile
  rw [outPathOf_root, insertTree_addRoot]

theorem pageBytes_root (r : List String) (t : DEntries) (f : SrcFile) :
    pageBytes r (addRootE r t) f = pageBytes [] t f := by
  unfold pageBytes
  rw [outPathOf_root, render_tree_addRoot r (outPathOf [] f) (outPathOf_nil_ne f),
    generate_html_root _ _ _ r (outPathOf [] f) (outPathOf_nil_ne f)]

theorem processFile_err_unreadable (out : List String) (st : GenState) (f : SrcFile)
    (hodin : endsOdin f.fname = true) (hc : f.content = none) :
    processFile out st f = .error .unreadable := by
  unfold processFile
  rw [if_pos hodin, hc]

theorem processFile_err_badTree (out : List String) (st : GenState) (f : SrcFile) (code : String)
    (hodin : endsOdin f.fname = true) (hc : f.content = some code)
    (hdocs : ¬(extract_docs code = [])) (hins : insertOk st.tree f.dirParts = false) :
    processFile out st f = .error .badTree := by
  unfold processFile
  rw [if_pos hodin, hc]
  simp only [if_neg hdocs, hins, Bool.false_eq_true, if_false]

theorem processFiles_cons_ok (out : List String) (st : GenState) (f : SrcFile)
    (rest : List SrcFile) (st' : GenState) (h : processFile out st f = .ok st') :
    processFiles out st (f :: rest) = processFiles out st' rest := by
  show (match processFile out st f with
    | .ok s => processFiles out s rest
    | .error e => (st, some e)) = processFiles out st' rest
  rw [h]

theorem processFiles_cons_err (out : List String) (st : GenState) (f : SrcFile)
    (rest : List SrcFile) (e : RunError) (h : processFile out st f = .error e) :
    processFiles out st (f :: rest) = (st, some e) := by
  show (match processFile out st f with
    | .ok s => processFiles out s rest
    | .error e => (st, some e)) = (st, some e)
  rw [h]

theorem processFiles_root (r : List String) : ∀ (files : List SrcFile) (t : DEntries)
    (outs : List (List String × String)),
    processFiles r ⟨addRootE r t, outs.map (fun pc => (r ++ pc.1, pc.2))⟩ files =
      (⟨addRootE r (processFiles [] ⟨t, outs⟩ files).1.tree,
        (processFiles [] ⟨t, outs⟩ files).1.outputs.map (fun pc => (r ++ pc.1, pc.2))⟩,
       (processFiles [] ⟨t, outs⟩ files).2) := by
  intro files
  induction files with
  | nil => intro t outs; rfl
  | cons f rest ih =>
    intro t outs
    by_cases hodin : endsOdin f.fname = true
    · cases hc : f.content with
      | none =>
        rw [processFiles_cons_err r _ f rest _ (processFile_err_unreadable r _ f hodin hc),
          processFiles_cons_err [] _ f rest _ (processFile_err_unreadable [] _ f hodin hc)]
      | some code =>
        by_cases hdocs : extract_docs code = []
        · have h0 : isProcessed f = false := by
            unfold isProcessed
            rw [hodin, hc]
            simp [hdocs]
          have hread : endsOdin f.fname = true → f.content ≠ none := by
            intro _ hn
            rw [hc] at hn
            exact Option.noConfusion hn
          rw [processFiles_cons_ok r _ f rest _ (processFile_ok_skip r _ f h0 hread),
            processFiles_cons_ok [] _ f rest _ (processFile_ok_skip [] _ f h0 hread)]
          exact ih t outs
        · cases hins : insertOk t f.dirParts with
          | true =>
            have hins2 : insertOk (addRootE r t) f.dirParts = true := by
              rw [insertOk_addRoot]
              exact hins
            have hpfL := processFile_ok_processed r
              ⟨addRootE r t, outs.map (fun pc => (r ++ pc.1, pc.2))⟩ f code hc hodin hdocs hins2
            have hpfR := processFile_ok_processed [] ⟨t, outs⟩ f code hc hodin hdocs hins
            simp only at hpfL hpfR
            rw [processFiles_cons_ok r _ f rest _ hpfL,
              processFiles_cons_ok [] _ f rest _ hpfR]
            rw [insertFile_root, pageBytes_root, outPathOf_root r f]
            rw [show (outs.map (fun pc => (r ++ pc.1, pc.2))) ++
                  [(r ++ outPathOf [] f, pageBytes [] (insertFile [] t f) f)] =
                (outs ++ [(outPathOf [] f, pageBytes [] (insertFile [] t f) f)]).map
                  (fun pc => (r ++ pc.1, pc.2)) from by rw [List.map_append]; rfl]
            exact ih (insertFile [] t f)
              (outs ++ [(outPathOf [] f, pageBytes [] (insertFile [] t f) f)])
          | false =>
            have hins2 : insertOk (addRootE r t) f.dirParts = false := by
              rw [insertOk_addRoot]
              exact hins
            rw [processFiles_cons_err r _ f rest _
                (processFile_err_badTree r _ f code hodin hc hdocs hins2),
              processFiles_cons_err [] _ f rest _
                (processFile_err_badTree [] _ f code hodin hc hdocs hins)]
    · have he : endsOdin f.fname = false := by
        revert hodin
        cases endsOdin f.fname <;> simp
      have h0 : isProcessed f = false := by
        unfold isProcessed
        rw [he]
        rfl
      have hread : endsOdin f.fname = true → f.content ≠ none := fun h => absurd h hodin
      rw [processFiles_cons_ok r _ f rest _ (processFile_ok_skip r _ f h0 hread),
        processFiles_cons_ok [] _ f rest _ (processFile_ok_skip [] _ f h0 hread)]
      exact ih t outs

theorem dropRoot_map (r : List String) (O : List (List String × String)) :
    (O.map (fun pc => (r ++ pc.1, pc.2))).map (fun pc => (pc.1.drop r.length, pc.2)) =
      O.map (fun pc => (pc.1.drop 0, pc.2)) := by
  induction O with
  | nil => rfl
  | cons x t ih =>
    simp only [List.map_cons, ih, List.drop_left, List.drop_zero]

theorem generate_root (r : List String) (files : List SrcFile) :
    relOutputs r (generate_docs_for_dir r files) =
      relOutputs [] (generate_docs_for_dir [] files) := by
  have h : processFiles r ⟨DEntries.nil, []⟩ files =
      (⟨addRootE r (processFiles [] ⟨DEntries.nil, []⟩ files).1.tree,
        (processFiles [] ⟨DEntries.nil, []⟩ files).1.outputs.map
          (fun pc => (r ++ pc.1, pc.2))⟩,
       (processFiles [] ⟨DEntries.nil, []⟩ files).2) :=
    processFiles_root r files DEntries.nil []
  rcases hpf : processFiles [] ⟨DEntries.nil, []⟩ files with ⟨⟨T, O⟩, E⟩
  rw [hpf] at h
  simp only at h
  unfold generate_docs_for_dir
  rw [h, hpf]
  cases E with
  | some e =>
    show relOutputs r (O.map (fun pc => (r ++ pc.1, pc.2)), some e) = relOutputs [] (O, some e)
    unfold relOutputs
    simp only [dropRoot_map, List.length_nil]
  | none =>
    show relOutputs r
        (O.map (fun pc => (r ++ pc.1, pc.2)) ++
          [(r ++ ["index.html"],
            generate_html [] "Index" (render_tree (addRootE r T) (r ++ ["index.html"]))
              (some (r ++ ["index.html"])) (some r))], none) =
      relOutputs []
        (O ++ [(["index.html"],
          generate_html [] "Index" (render_tree T ["index.html"])
            (some ["index.html"]) (some []))], none)
    rw [render_tree_addRoot r ["index.html"] (by simp),
      generate_html_root [] "Index" _ r ["index.html"] (by simp)]
    unfold relOutputs
    simp only [List.map_append, dropRoot_map, List.map_cons, List.map_nil, List.drop_left,
      List.length_nil, List.drop_zero]

/-- C9: running the generator on the same walked source files into any two
output directories produces the same pages at the same root-relative
paths with byte-identical contents and the same run outcome; in
particular, two runs on an unchanged source tree into fresh output
directories yield byte-identical HTML output files. -/
theorem c9_output_root_independent (out1 out2 : List String) (files : List SrcFile) :
    relOutputs out1 (generate_docs_for_dir out1 files) =
      relOutputs out2 (generate_docs_for_dir out2 files) :=
  (generate_root out1 files).trans (generate_root out2 files).symm
